import Mathlib

/-!
# Verification of the Gun Keypoint Annotation Tool core

Shallow embedding of `KeypointAnnotationTool.py`:

* `Skeleton`, the annotation entity (Python class `Skeleton`): its keypoint
  dictionary is modelled as an association list in insertion order (Python
  dicts preserve insertion order), where a stored `none` models the Python
  value `None` ("keypoint deleted / absent").
* The YOLO pose codec (`save_yolo_format` and the line parser inside
  `load_annotations`).  A written line is modelled at the level of its
  whitespace-separated numeric fields: each field is one rational number
  (Python floats and their `"%.6f"` decimal rendering are idealised as exact
  rationals; the 6-decimal rounding itself is modelled exactly by `fmt6`).
* The interactive state machine (`add_new_skeleton`, `mouseMoveEvent` drags,
  `Delete`-key keypoint deletion, `undo_action`, `redo_action`,
  `reset_annotations`).  Python object references held by the history are
  modelled by an explicit heap `Nat → Skeleton` plus an allocation counter,
  so aliasing between `skeletons`, history records and reset snapshots is
  preserved.
-/

-- Rational arithmetic is evaluated inside concrete scenarios below; these
-- transparency annotations only let the elaborator unfold the arithmetic
-- (the kernel always could), they change no definition.
attribute [local semireducible] Rat.add Rat.mul Rat.inv Rat.sub

/-- Skeleton variant tag (Python string tags `'LMG'` / `'Rifle'`). -/
inductive SkelType where
  | LMG : SkelType
  | Rifle : SkelType
deriving DecidableEq, Repr

/-- An image-space keypoint position (a Python coordinate 2-tuple). -/
abbrev Pos := ℚ × ℚ

/-- The keypoint dictionary of one skeleton: keys in insertion order, a
`none` value models Python `None` (the keypoint is marked absent). -/
abbrev Anns := List (String × Option Pos)

/-- Python class `Skeleton` (line 55): `id`, the keypoint dictionary
(field `annotations` in the source, modelled as the association list
`anns`), and `skeleton_type`.  The per-object history fields of the Python
class are never used by the program and are omitted. -/
structure Skeleton where
  id : ℕ
  anns : Anns
  skeleton_type : SkelType
deriving DecidableEq, Repr

/-- Python `skeleton.annotations.get(part)`: the stored value, flattening a
missing key and a stored `None` to `none` (exactly what `.get` returns). -/
def getAnn (a : Anns) (p : String) : Option Pos :=
  match List.lookup p a with
  | some v => v
  | none => none

/-- Python `skeleton.annotations[part] = v`: replace the value of an
existing key in place, else append the new key (dict insertion order). -/
def setAnn (a : Anns) (p : String) (v : Option Pos) : Anns :=
  match a with
  | [] => [(p, v)]
  | (q, u) :: rest => if p = q then (p, v) :: rest else (q, u) :: setAnn rest p v

/-- The fixed per-variant part list used by both `save_yolo_format`
(lines 858, 862) and the `load_annotations` parser (lines 697, 701); the
two sites use identical lists. -/
def skeleton_parts : SkelType → List String
  | .LMG => ["butt", "pistol grip", "trigger", "cover", "rear sight",
             "barrel jacket", "left bipod", "right bipod"]
  | .Rifle => ["butt", "rear sight", "pistol grip", "trigger", "front handguard", "barrel"]

/-- YOLO class index (`save_yolo_format` lines 860, 863). -/
def class_index : SkelType → ℕ
  | .LMG => 0
  | .Rifle => 1

/-- Rounding of a real value to 6 decimal digits, the effect of the
`"%.6f"` formatting in `save_yolo_format` followed by parsing the decimal
back as a number (floats idealised as rationals, rounding to nearest). -/
def fmt6 (q : ℚ) : ℚ := ((round (q * 1000000) : ℤ) : ℚ) / 1000000

/-- Python `min` over a nonempty list (0 is never reached on the inputs
the program produces; `save_yolo_format` only calls it on nonempty `xs`). -/
def listMin : List ℚ → ℚ
  | [] => 0
  | a :: rest => rest.foldl min a

/-- Python `max` over a nonempty list. -/
def listMax : List ℚ → ℚ
  | [] => 0
  | a :: rest => rest.foldl max a

/-- The keypoint fields of one encoded line (`save_yolo_format` lines
866-883): two fields per part in part-list order; a present keypoint is
normalised by the image dimensions and rounded to 6 decimals, an absent
keypoint contributes the two literal fields `-1 -1`. -/
def encodeKps (W H : ℚ) (a : Anns) (ps : List String) : List ℚ :=
  ps.flatMap (fun part =>
    match getAnn a part with
    | some c => [fmt6 (c.1 / W), fmt6 (c.2 / H)]
    | none => [-1, -1])

/-- One line of `save_yolo_format` (lines 850-903) for one skeleton, as the
list of its whitespace-separated numeric fields, or `none` when the
skeleton has no present keypoint (`if xs and ys:` fails, no line emitted). -/
def encodeLine (W H : ℚ) (s : Skeleton) : Option (List ℚ) :=
  let sparts := skeleton_parts s.skeleton_type
  let xs := sparts.filterMap (fun p => (getAnn s.anns p).map (fun c => c.1 / W))
  let ys := sparts.filterMap (fun p => (getAnn s.anns p).map (fun c => c.2 / H))
  if xs = [] ∨ ys = [] then none
  else
    let min_x := listMin xs
    let max_x := listMax xs
    let min_y := listMin ys
    let max_y := listMax ys
    some (((class_index s.skeleton_type : ℕ) : ℚ) ::
          fmt6 ((min_x + max_x) / 2) :: fmt6 ((min_y + max_y) / 2) ::
          fmt6 (max_x - min_x) :: fmt6 (max_y - min_y) ::
          encodeKps W H s.anns sparts)

/-- The `yolo_data` list built by `save_yolo_format` (lines 846-903): one
line per skeleton in list order, skipping skeletons with no present
keypoint. -/
def yolo_data (W H : ℚ) (skeletons : List Skeleton) : List (List ℚ) :=
  skeletons.filterMap (encodeLine W H)

/-- File effect of `save_yolo_format` (lines 905-916): the contents of the
annotation file after the call (`none` = no file).  When `yolo_data` is
empty, nothing is written and a pre-existing file is removed, so the result
is `none` whatever `existing` was. -/
def save_yolo_format (W H : ℚ) (skeletons : List Skeleton)
    (_existing : Option (List (List ℚ))) : Option (List (List ℚ)) :=
  match yolo_data W H skeletons with
  | [] => none
  | l => some l

/-- `KeypointAnnotationTool.save_annotations` (lines 645-670): returns the
(unmutated) skeleton list together with the resulting file contents.  With
no skeletons it deletes any existing file and writes nothing; otherwise it
defers to `save_yolo_format`.  The method never assigns to any annotation
state, which the identity first component makes explicit. -/
def save_annotations (W H : ℚ) (skeletons : List Skeleton)
    (existing : Option (List (List ℚ))) : List Skeleton × Option (List (List ℚ)) :=
  (skeletons, if skeletons = [] then none else save_yolo_format W H skeletons existing)

/-- The keypoint-parsing loop of `load_annotations` (lines 704-717): for
the i-th part the fields at indices 2i and 2i+1 are consumed (modelled by
eating two fields per part); if fewer than two fields remain, that part and
all later parts get no dictionary entry at all.  A pair with both fields
nonnegative is denormalised by the image dimensions, otherwise the part is
stored as `None`. -/
def decodeKps (W H : ℚ) : List String → List ℚ → Anns
  | [], _ => []
  | _ :: _, [] => []
  | _ :: _, [_] => []
  | p :: ps, x :: y :: rest =>
      (p, if 0 ≤ x ∧ 0 ≤ y then some (x * W, y * H) else none) :: decodeKps W H ps rest

/-- One iteration of the line loop of `load_annotations` (lines 683-717):
a line with fewer than 5 fields is skipped; class field `0` selects the LMG
part list, anything else the Rifle list; the fields after the first five
are the keypoint pairs. -/
def load_line (W H : ℚ) (toks : List ℚ) : Option (SkelType × Anns) :=
  if toks.length < 5 then none
  else
    let stype : SkelType := if toks.headI = 0 then .LMG else .Rifle
    some (stype, decodeKps W H (skeleton_parts stype) (toks.drop 5))

/-- Python `get_next_skeleton_id` (lines 476-481): `min` of
`set(range(1, len(skeletons) + len(deleted_skeleton_ids) + 2))` minus the
live ids. -/
def get_next_skeleton_id (skeletons : List Skeleton) (deleted : Finset ℕ) : ℕ :=
  let existing := (skeletons.map Skeleton.id).toFinset
  let all_ids := (Finset.range (skeletons.length + deleted.card + 2)).erase 0
  ((all_ids \ existing).min).untop' 0

/-- The accumulator recursion of `load_annotations` (lines 682-721): each
decoded line is appended as a fresh `Skeleton` whose id is allocated by
`get_next_skeleton_id` against the skeletons decoded so far
(`deleted_skeleton_ids` is empty on this path: `load_image` clears it
before calling `load_annotations`). -/
def loadAux (W H : ℚ) (acc : List Skeleton) : List (List ℚ) → List Skeleton
  | [] => acc
  | toks :: rest =>
      match load_line W H toks with
      | none => loadAux W H acc rest
      | some (t, a) => loadAux W H (acc ++ [⟨get_next_skeleton_id acc ∅, a, t⟩]) rest

/-- `load_annotations` (lines 672-722) applied to the lines of an
annotation file. -/
def load_annotations (W H : ℚ) (ls : List (List ℚ)) : List Skeleton :=
  loadAux W H [] ls

/-- Python `int(...)` applied to a real value: truncation toward zero
(`mouseMoveEvent`, lines 121-122 apply `int` before clamping). -/
def ratTrunc (q : ℚ) : ℤ := if 0 ≤ q then ⌊q⌋ else ⌈q⌉

/-- The clamping of `mouseMoveEvent` (lines 119-122): coordinates are
truncated to integers and clamped into `[0, width-1] x [0, height-1]`
(`max(0, min(int(x), width - 1))`). -/
def clampMove (W H : ℕ) (x y : ℚ) : Pos :=
  (((max 0 (min (ratTrunc x) ((W : ℤ) - 1)) : ℤ) : ℚ),
   ((max 0 (min (ratTrunc y) ((H : ℤ) - 1)) : ℤ) : ℚ))

/-- The position stored by one `mouseMoveEvent` drag step (lines 114-126):
the view-space pointer position is converted to image space
(`(event.x() - offset_x) / zoom_level`), then truncated and clamped. -/
def mouseMoveDest (ex ey ox oy zoom : ℚ) (W H : ℕ) : Pos :=
  clampMove W H ((ex - ox) / zoom) ((ey - oy) / zoom)

/-- The inner part-loop of `mousePressEvent` (lines 99-110): first
dictionary entry (in dict order) that is present and within 10 image-space
pixels of the click.  `np.hypot dx dy ≤ 10` is expressed on squares,
`dx^2 + dy^2 ≤ 100`, which is equivalent since both sides are
nonnegative (ℚ has no square root). -/
def findHitInAnns (x y : ℚ) : Anns → Option String
  | [] => none
  | (p, c) :: rest =>
      match c with
      | some pos =>
          if (x - pos.1) ^ 2 + (y - pos.2) ^ 2 ≤ 100 then some p
          else findHitInAnns x y rest
      | none => findHitInAnns x y rest

/-- The outer skeleton-loop of `mousePressEvent` (lines 97-112): skeletons
are scanned in list order and the scan stops at the first skeleton with a
hit; the selected skeleton is reported by its id. -/
def hitTest (x y : ℚ) : List Skeleton → Option (ℕ × String)
  | [] => none
  | s :: rest =>
      match findHitInAnns x y s.anns with
      | some p => some (s.id, p)
      | none => hitTest x y rest

/-- `mousePressEvent` (lines 92-112): the click is converted to image
space by the inverse view transform and then hit-tested. -/
def mousePressHit (ex ey ox oy zoom : ℚ) (skels : List Skeleton) : Option (ℕ × String) :=
  hitTest ((ex - ox) / zoom) ((ey - oy) / zoom) skels

/-- Specification-side list of every keypoint within tolerance of the
click, in skeleton-then-part order (the spec phrases the hit test as
"the first keypoint whose distance ≤ tolerance" in that order). -/
def annsHits (x y : ℚ) (a : Anns) : List String :=
  a.filterMap (fun pc =>
    match pc.2 with
    | some pos => if (x - pos.1) ^ 2 + (y - pos.2) ^ 2 ≤ 100 then some pc.1 else none
    | none => none)

/-- Specification-side flattened hit list over all skeletons in order. -/
def allHits (x y : ℚ) (skels : List Skeleton) : List (ℕ × String) :=
  skels.flatMap (fun s => (annsHits x y s.anns).map (fun p => (s.id, p)))

/-- Default keypoint dictionary of `add_new_skeleton` (lines 435-461):
fixed offsets from the image centre `(width // 2, height // 2)`, in the
dictionary insertion order of the source. -/
def default_positions (W H : ℕ) : SkelType → Anns
  | .LMG =>
      let cx : ℚ := (W / 2 : ℕ)
      let cy : ℚ := (H / 2 : ℕ)
      [("butt", some (cx - 100, cy)),
       ("pistol grip", some (cx - 50, cy + 50)),
       ("trigger", some (cx, cy + 20)),
       ("cover", some (cx, cy)),
       ("rear sight", some (cx + 50, cy - 30)),
       ("barrel jacket", some (cx + 100, cy)),
       ("left bipod", some (cx + 150, cy + 50)),
       ("right bipod", some (cx + 150, cy - 50))]
  | .Rifle =>
      let cx : ℚ := (W / 2 : ℕ)
      let cy : ℚ := (H / 2 : ℕ)
      [("butt", some (cx - 100, cy)),
       ("rear sight", some (cx - 50, cy - 30)),
       ("pistol grip", some (cx - 10, cy + 50)),
       ("trigger", some (cx, cy + 20)),
       ("front handguard", some (cx + 50, cy)),
       ("barrel", some (cx + 100, cy))]

/-- One record of `annotation_history` / `redo_stack`.  The Python tuples
hold references to live `Skeleton` objects; references are modelled as heap
addresses (`ℕ`), and a `reset` record holds the shallow copy
`self.skeletons.copy()`, i.e. the list of references. -/
inductive HAction where
  | add_skeleton (ref : ℕ) : HAction
  | move_keypoint (ref : ℕ) (part : String) (oldc : Option Pos) (newc : Pos) : HAction
  | delete_keypoint (ref : ℕ) (part : String) (coords : Option Pos) : HAction
  | reset (snapshot : List ℕ) : HAction
deriving DecidableEq, Repr

/-- The user-level operations of the annotation session.  A `move` carries
the image-space pointer position of one drag step; `ref` of `move`/`del`
is the heap address of the targeted (selected) skeleton object. -/
inductive Op where
  | add (t : SkelType) : Op
  | move (ref : ℕ) (part : String) (x y : ℚ) : Op
  | del (ref : ℕ) (part : String) : Op
  | undo : Op
  | redo : Op
  | reset : Op
deriving DecidableEq, Repr

/-- The mutable annotation state of `KeypointAnnotationTool`: the skeleton
list (as heap references), the object heap with its allocation counter,
`deleted_skeleton_ids`, `annotation_history` and `redo_stack` (most recent
record first, matching Python append/pop at the tail). -/
structure ToolState where
  skeletons : List ℕ
  heap : ℕ → Skeleton
  counter : ℕ
  deleted_skeleton_ids : Finset ℕ
  hist : List HAction
  redo_stack : List HAction

/-- Fresh state after `load_image` (lines 381-384): no skeletons, no
retired ids, empty histories. -/
def initState : ToolState :=
  ⟨[], fun _ => ⟨0, [], .LMG⟩, 0, ∅, [], []⟩

/-- One step of the annotation session:

* `add`: `set_skeleton_type` → `add_new_skeleton` (lines 435-474) —
  allocates an id via `get_next_skeleton_id`, builds the default
  dictionary, appends the new object, records `('add_skeleton', skeleton)`
  and clears the redo stack;
* `move`: one `mouseMoveEvent` drag step (lines 114-132) on the selected
  keypoint — clamps, overwrites the position in place, records
  `('move_keypoint', skeleton, part, old, new)` and clears the redo stack;
* `del`: the `Delete` key branch of `keyPressEvent` (lines 761-772) — sets
  the selected keypoint to `None`, records `('delete_keypoint', skeleton,
  part, coords)` and clears the redo stack;
* `undo` / `redo`: `undo_action` (lines 539-564) / `redo_action`
  (lines 566-591) — a no-op on empty history (only a toast is shown);
  `skeletons.remove(skeleton)` is modelled by `List.erase` (first
  occurrence — on the reachable states of this development the reference
  is always present, so the `ValueError` branch of `list.remove` is never
  taken);
* `reset`: `reset_annotations` (lines 513-537) — records the shallow copy
  of the skeleton list, clears the redo stack, empties `skeletons` and
  `deleted_skeleton_ids`. -/
def applyOp (W H : ℕ) (st : ToolState) : Op → ToolState
  | .add t =>
      let sid := get_next_skeleton_id (st.skeletons.map st.heap) st.deleted_skeleton_ids
      let sk : Skeleton := ⟨sid, default_positions W H t, t⟩
      { st with
        skeletons := st.skeletons ++ [st.counter]
        heap := Function.update st.heap st.counter sk
        counter := st.counter + 1
        hist := .add_skeleton st.counter :: st.hist
        redo_stack := [] }
  | .move ref part x y =>
      let sk := st.heap ref
      let old := getAnn sk.anns part
      let newpos := clampMove W H x y
      { st with
        heap := Function.update st.heap ref { sk with anns := setAnn sk.anns part (some newpos) }
        hist := .move_keypoint ref part old newpos :: st.hist
        redo_stack := [] }
  | .del ref part =>
      let sk := st.heap ref
      let coords := getAnn sk.anns part
      { st with
        heap := Function.update st.heap ref { sk with anns := setAnn sk.anns part none }
        hist := .delete_keypoint ref part coords :: st.hist
        redo_stack := [] }
  | .reset =>
      { st with
        hist := .reset st.skeletons :: st.hist
        redo_stack := []
        skeletons := []
        deleted_skeleton_ids := ∅ }
  | .undo =>
      match st.hist with
      | [] => st
      | a :: h =>
          match a with
          | .add_skeleton ref =>
              { st with
                hist := h
                redo_stack := a :: st.redo_stack
                skeletons := st.skeletons.erase ref
                deleted_skeleton_ids := insert (st.heap ref).id st.deleted_skeleton_ids }
          | .move_keypoint ref part oldc _ =>
              let sk := st.heap ref
              { st with
                hist := h
                redo_stack := a :: st.redo_stack
                heap := Function.update st.heap ref { sk with anns := setAnn sk.anns part oldc } }
          | .delete_keypoint ref part coords =>
              let sk := st.heap ref
              { st with
                hist := h
                redo_stack := a :: st.redo_stack
                heap := Function.update st.heap ref { sk with anns := setAnn sk.anns part coords } }
          | .reset snap =>
              { st with
                hist := h
                redo_stack := a :: st.redo_stack
                skeletons := snap
                deleted_skeleton_ids := ∅ }
  | .redo =>
      match st.redo_stack with
      | [] => st
      | a :: r =>
          match a with
          | .add_skeleton ref =>
              { st with
                redo_stack := r
                hist := a :: st.hist
                skeletons := st.skeletons ++ [ref]
                deleted_skeleton_ids := st.deleted_skeleton_ids.erase (st.heap ref).id }
          | .move_keypoint ref part _ newc =>
              let sk := st.heap ref
              { st with
                redo_stack := r
                hist := a :: st.hist
                heap := Function.update st.heap ref { sk with anns := setAnn sk.anns part (some newc) } }
          | .delete_keypoint ref part _ =>
              let sk := st.heap ref
              { st with
                redo_stack := r
                hist := a :: st.hist
                heap := Function.update st.heap ref { sk with anns := setAnn sk.anns part none } }
          | .reset _ =>
              { st with
                redo_stack := r
                hist := a :: st.hist
                skeletons := []
                deleted_skeleton_ids := ∅ }

/-- Run a sequence of operations. -/
def applyOps (W H : ℕ) (st : ToolState) (ops : List Op) : ToolState :=
  ops.foldl (applyOp W H) st

/-- The observable annotation state: the skeleton objects of the live list
(id, keypoint dictionary, variant), in insertion order. -/
def obs (st : ToolState) : List Skeleton :=
  st.skeletons.map st.heap

/-- `n` consecutive `undo_action` calls. -/
def undoN (W H : ℕ) : ℕ → ToolState → ToolState
  | 0, st => st
  | n + 1, st => undoN W H n (applyOp W H st .undo)

/-- `n` consecutive `redo_action` calls. -/
def redoN (W H : ℕ) : ℕ → ToolState → ToolState
  | 0, st => st
  | n + 1, st => redoN W H n (applyOp W H st .redo)

/-- `undo_action` repeated until the undo log is empty. -/
def undoAll (W H : ℕ) (st : ToolState) : ToolState :=
  undoN W H st.hist.length st

/-- `redo_action` repeated until the redo log is empty. -/
def redoAll (W H : ℕ) (st : ToolState) : ToolState :=
  redoN W H st.redo_stack.length st

/-- Validity of one generating operation for the undo/redo round-trip:
`add` is always valid; `move`/`del` must target an allocated skeleton
object and one of its dictionary keys (in the GUI the target is always a
selected keypoint of a live skeleton, so both hold); `undo`/`redo`/`reset`
are not part of the generating sequences of claim C2. -/
def opOK (st : ToolState) : Op → Bool
  | .add _ => true
  | .move ref part _ _ => decide (ref < st.counter) && (List.lookup part (st.heap ref).anns).isSome
  | .del ref part => decide (ref < st.counter) && (List.lookup part (st.heap ref).anns).isSome
  | .undo => false
  | .redo => false
  | .reset => false

/-- Validity of a whole generating sequence, checked state by state. -/
def opsOK (W H : ℕ) : ToolState → List Op → Bool
  | _, [] => true
  | st, op :: rest => opOK st op && opsOK W H (applyOp W H st op) rest

/-- A position whose two coordinates are integral rationals. -/
def isIntPair (c : Pos) : Prop := c.1.den = 1 ∧ c.2.den = 1

instance (c : Pos) : Decidable (isIntPair c) := by
  unfold isIntPair
  infer_instance


/-! ## Association-list helper lemmas -/

theorem lookup_eq_some_getAnn (a : Anns) (p : String)
    (h : (List.lookup p a).isSome) : List.lookup p a = some (getAnn a p) := by
  unfold getAnn
  cases hl : List.lookup p a with
  | none => rw [hl] at h; simp at h
  | some v => simp

theorem setAnn_setAnn_restore (a : Anns) (p : String) (v w : Option Pos)
    (h : List.lookup p a = some v) : setAnn (setAnn a p w) p v = a := by
  induction a with
  | nil => simp [List.lookup] at h
  | cons e rest ih =>
      obtain ⟨q, u⟩ := e
      by_cases hpq : p = q
      · subst hpq
        simp [List.lookup] at h
        subst h
        simp [setAnn]
      · have hbeq : (p == q) = false := by simp [hpq]
        simp [List.lookup, hbeq] at h
        simp [setAnn, hpq, ih h]

theorem getAnn_mem (a : Anns) (p : String) (c : Pos)
    (h : getAnn a p = some c) : (p, some c) ∈ a := by
  induction a with
  | nil => simp [getAnn, List.lookup] at h
  | cons e rest ih =>
      obtain ⟨q, u⟩ := e
      by_cases hpq : p = q
      · subst hpq
        simp [getAnn, List.lookup] at h
        simp [h]
      · have hbeq : (p == q) = false := by simp [hpq]
        simp [getAnn, List.lookup, hbeq] at h
        right
        exact ih h

theorem setAnn_mem (a : Anns) (p : String) (v : Option Pos) (e : String × Option Pos)
    (h : e ∈ setAnn a p v) : e ∈ a ∨ e = (p, v) := by
  induction a with
  | nil => simp [setAnn] at h; simp [h]
  | cons hd rest ih =>
      obtain ⟨q, u⟩ := hd
      by_cases hpq : p = q
      · subst hpq
        simp [setAnn] at h
        rcases h with h | h
        · right; simp [h]
        · left; simp [h]
      · simp [setAnn, hpq] at h
        rcases h with h | h
        · left; simp [h]
        · rcases ih h with h' | h'
          · left; simp [h']
          · right; exact h'

theorem erase_append_last (l : List ℕ) (a : ℕ) (h : a ∉ l) :
    (l ++ [a]).erase a = l := by
  induction l with
  | nil => simp
  | cons b rest ih =>
      have hba : ¬(b == a) = true := by
        simp only [beq_iff_eq]
        intro hba
        exact h (by simp [hba])
      simp only [List.cons_append, List.erase_cons]
      rw [if_neg hba, ih (fun hm => h (List.mem_cons_of_mem _ hm))]

/-! ## Rounding lemmas for the 6-decimal format -/

theorem fmt6_nonneg (q : ℚ) (h : 0 ≤ q) : 0 ≤ fmt6 q := by
  unfold fmt6
  apply div_nonneg _ (by norm_num)
  have : (0 : ℤ) ≤ round (q * 1000000) := by
    rw [round_eq]
    apply Int.le_floor.2
    push_cast
    nlinarith
  exact_mod_cast this

theorem abs_fmt6_sub (q : ℚ) : |fmt6 q - q| ≤ 1 / 2000000 := by
  unfold fmt6
  have h := abs_sub_round (q * 1000000)
  have h2 : fmt6 q - q = (((round (q * 1000000) : ℤ) : ℚ) - q * 1000000) / 1000000 := by
    unfold fmt6; ring
  unfold fmt6 at h2
  rw [h2, abs_div, abs_of_pos (by norm_num : (0:ℚ) < 1000000)]
  rw [abs_sub_comm] at h
  linarith [h]

/-! ## Claim C5: drag moves clamp into the image bounds -/

/-- C5: every position stored by a drag move lies in
`[0, W-1] x [0, H-1]` for any requested view-space position and any view
transform, and moving a keypoint to image-space `(-5, 10000)` on a
`640x480` image stores `(0, 479)`. -/
theorem int_clamp_bounds (t : ℤ) (W : ℕ) (hW : 1 ≤ W) :
    (0 : ℚ) ≤ ((max 0 (min t ((W : ℤ) - 1)) : ℤ) : ℚ) ∧
    ((max 0 (min t ((W : ℤ) - 1)) : ℤ) : ℚ) ≤ (W : ℚ) - 1 := by
  constructor
  · exact_mod_cast le_max_left 0 (min t ((W : ℤ) - 1))
  · have h1 : max 0 (min t ((W : ℤ) - 1)) ≤ (W : ℤ) - 1 := by
      apply max_le _ (min_le_right _ _)
      omega
    push_cast
    exact_mod_cast h1

/-- C5: every position stored by a drag move lies in
`[0, W-1] x [0, H-1]` for any requested view-space position and any view
transform, and moving a keypoint to image-space `(-5, 10000)` on a
`640x480` image stores `(0, 479)`. -/
theorem move_clamps_to_bounds :
    (∀ (W H : ℕ) (ex ey ox oy zoom : ℚ), 1 ≤ W → 1 ≤ H →
      0 ≤ (mouseMoveDest ex ey ox oy zoom W H).1 ∧
      (mouseMoveDest ex ey ox oy zoom W H).1 ≤ (W : ℚ) - 1 ∧
      0 ≤ (mouseMoveDest ex ey ox oy zoom W H).2 ∧
      (mouseMoveDest ex ey ox oy zoom W H).2 ≤ (H : ℚ) - 1) ∧
    clampMove 640 480 (-5) 10000 = (0, 479) := by
  constructor
  · intro W H ex ey ox oy zoom hW hH
    unfold mouseMoveDest clampMove
    dsimp only
    exact ⟨(int_clamp_bounds _ W hW).1, (int_clamp_bounds _ W hW).2,
           (int_clamp_bounds _ H hH).1, (int_clamp_bounds _ H hH).2⟩
  · decide

/-- Witness for C5 at a concrete input. -/
theorem move_clamps_to_bounds_witness :
    0 ≤ (mouseMoveDest (-7) 123 0 0 1 640 480).1 ∧
    (mouseMoveDest (-7) 123 0 0 1 640 480).1 ≤ (640 : ℚ) - 1 ∧
    0 ≤ (mouseMoveDest (-7) 123 0 0 1 640 480).2 ∧
    (mouseMoveDest (-7) 123 0 0 1 640 480).2 ≤ (480 : ℚ) - 1 :=
  move_clamps_to_bounds.1 640 480 (-7) 123 0 0 1 (by decide) (by decide)

/-! ## Claim C9: undoing a reset empties the retired-id set -/

/-- C9: undoing a `reset` record reinstalls the recorded snapshot as the
skeleton list and unconditionally empties `deleted_skeleton_ids`,
whatever that set held when the reset was performed. -/
theorem undo_reset_clears_retired (W H : ℕ) (st : ToolState) (snap : List ℕ)
    (h : List HAction) (hh : st.hist = HAction.reset snap :: h) :
    (applyOp W H st .undo).skeletons = snap ∧
    (applyOp W H st .undo).deleted_skeleton_ids = ∅ := by
  obtain ⟨sk, hp, c, d, hist, rd⟩ := st
  simp only at hh
  subst hh
  simp [applyOp]

/-- Witness for C9: a state whose retired-id set is `{7}` when the reset
is undone still ends with an empty retired-id set. -/
theorem undo_reset_clears_retired_witness :
    (applyOp 1 1 ⟨[9], fun _ => ⟨0, [], .LMG⟩, 3, {7}, [HAction.reset [5]], []⟩ .undo).skeletons = [5] ∧
    (applyOp 1 1 ⟨[9], fun _ => ⟨0, [], .LMG⟩, 3, {7}, [HAction.reset [5]], []⟩ .undo).deleted_skeleton_ids = ∅ :=
  undo_reset_clears_retired 1 1 _ [5] [] rfl

/-! ## Claim C10: drag moves store integer coordinates, decoding may not -/

/-- C10: every position stored by a drag move is an integer pair (the
image-space coordinates are truncated toward zero before clamping and
storing), whereas decoding an annotation file can produce a non-integer
position: denormalising the field `0.5` on a width-3 image stores
`x = 3/2`. -/
theorem move_integer_decode_fractional :
    (∀ (ex ey ox oy zoom : ℚ) (W H : ℕ), isIntPair (mouseMoveDest ex ey ox oy zoom W H)) ∧
    ((load_annotations 3 3
        [[0, 1/2, 1/2, 0, 0, 1/2, 1/2, -1, -1, -1, -1, -1, -1, -1, -1, -1, -1, -1, -1, -1, -1]]).map
        (fun s => getAnn s.anns "butt") = [some (3/2, 3/2)] ∧
      ¬ isIntPair (3/2, 3/2)) := by
  refine ⟨?_, by decide, by decide⟩
  intro ex ey ox oy zoom W H
  unfold mouseMoveDest clampMove isIntPair
  exact ⟨Rat.den_intCast _, Rat.den_intCast _⟩

/-- Witness for C10 at a concrete drag position. -/
theorem move_integer_decode_fractional_witness :
    isIntPair (mouseMoveDest 5 7 0 0 1 640 480) :=
  move_integer_decode_fractional.1 5 7 0 0 1 640 480

/-! ## Claim C3: id allocation returns the smallest free positive id -/

/-- C3: `get_next_skeleton_id` returns the smallest positive integer that
is not the id of any live skeleton (whatever `deleted_skeleton_ids`
holds — the retired set only pads the candidate range); in particular with
live ids `{1, 3}` after id 2 was retired, the next id is `2`, not `4`. -/
theorem next_id_smallest :
    (∀ (skels : List Skeleton) (deleted : Finset ℕ),
      0 < get_next_skeleton_id skels deleted ∧
      get_next_skeleton_id skels deleted ∉ skels.map Skeleton.id ∧
      ∀ j, 0 < j → j ∉ skels.map Skeleton.id → get_next_skeleton_id skels deleted ≤ j) ∧
    get_next_skeleton_id [⟨1, [], .LMG⟩, ⟨3, [], .LMG⟩] {2} = 2 := by
  constructor
  · intro skels deleted
    set E := (skels.map Skeleton.id).toFinset with hE
    set n := skels.length with hn
    set A := ((Finset.range (n + deleted.card + 2)).erase 0) \ E with hA
    have hcardE : E.card ≤ n := by
      calc E.card ≤ (skels.map Skeleton.id).length := List.toFinset_card_le _
        _ = n := by simp [hn]
    have hpig : ∃ i ∈ Finset.Icc 1 (n + 1), i ∉ E := by
      by_contra hcon
      push_neg at hcon
      have hsub : Finset.Icc 1 (n + 1) ⊆ E := fun i hi => hcon i hi
      have := Finset.card_le_card hsub
      rw [Nat.card_Icc] at this
      omega
    obtain ⟨i, hiIcc, hiE⟩ := hpig
    rw [Finset.mem_Icc] at hiIcc
    have hiA : i ∈ A :=
      Finset.mem_sdiff.2 ⟨Finset.mem_erase.2 ⟨by omega, Finset.mem_range.2 (by omega)⟩, hiE⟩
    have hne : A.Nonempty := ⟨i, hiA⟩
    have hval : get_next_skeleton_id skels deleted = A.min' hne := by
      have h0 : get_next_skeleton_id skels deleted = (A.min).untop' 0 := rfl
      rw [h0, ← Finset.coe_min' hne, WithTop.untop'_coe]
    rw [hval]
    have hmem := A.min'_mem hne
    have hmem2 := Finset.mem_sdiff.1 hmem
    have hmem3 := Finset.mem_erase.1 hmem2.1
    refine ⟨Nat.pos_of_ne_zero hmem3.1, ?_, ?_⟩
    · intro hin
      exact hmem2.2 (List.mem_toFinset.2 hin)
    · intro j hj hjin
      by_cases hjA : j ∈ A
      · exact A.min'_le j hjA
      · have hjE : j ∉ E := fun hmemj => hjin (List.mem_toFinset.1 hmemj)
        have hjbig : ¬ j < n + deleted.card + 2 := by
          intro hlt
          exact hjA (Finset.mem_sdiff.2
            ⟨Finset.mem_erase.2 ⟨by omega, Finset.mem_range.2 hlt⟩, hjE⟩)
        have hile := A.min'_le i hiA
        omega
  · decide

/-- Witness for C3: applying the characterisation at a concrete store. -/
theorem next_id_smallest_witness :
    0 < get_next_skeleton_id [⟨1, [], .LMG⟩, ⟨2, [], .Rifle⟩] ∅ ∧
    get_next_skeleton_id [⟨1, [], .LMG⟩, ⟨2, [], .Rifle⟩] ∅ ≤ 3 := by
  have h := next_id_smallest.1 [⟨1, [], .LMG⟩, ⟨2, [], .Rifle⟩] ∅
  exact ⟨h.1, h.2.2 3 (by decide) (by decide)⟩

/-! ## Claim C6: the hit test returns the first keypoint within tolerance -/

theorem findHitInAnns_eq_head (x y : ℚ) (a : Anns) :
    findHitInAnns x y a = (annsHits x y a).head? := by
  induction a with
  | nil => rfl
  | cons e rest ih =>
      obtain ⟨p, c⟩ := e
      cases c with
      | none => simpa [findHitInAnns, annsHits] using ih
      | some pos =>
          by_cases hd : (x - pos.1) ^ 2 + (y - pos.2) ^ 2 ≤ 100
          · simp [findHitInAnns, annsHits, hd]
          · simpa [findHitInAnns, annsHits, hd] using ih

theorem hitTest_eq_head (x y : ℚ) (skels : List Skeleton) :
    hitTest x y skels = (allHits x y skels).head? := by
  induction skels with
  | nil => rfl
  | cons s rest ih =>
      rw [hitTest, findHitInAnns_eq_head]
      cases hh : (annsHits x y s.anns) with
      | nil => simpa [allHits, hh] using ih
      | cons p ps => simp [allHits, hh]

/-- C6: `mousePressEvent` converts the click to image space and selects
the first present keypoint within 10 image-space pixels, scanning
skeletons in store order and parts in dictionary order (head of the
ordered hit list `allHits`) — not the globally nearest keypoint.  Two
concrete scenarios: with two keypoints at the identical position the first
skeleton wins, and a boundary hit at squared distance 100 on skeleton 1
shadows an exact hit (distance 0) on skeleton 2. -/
theorem hit_first_within_tolerance :
    (∀ (ex ey ox oy zoom : ℚ) (skels : List Skeleton),
      mousePressHit ex ey ox oy zoom skels =
        (allHits ((ex - ox) / zoom) ((ey - oy) / zoom) skels).head?) ∧
    mousePressHit 50 50 0 0 1
      [⟨1, [("butt", some (50, 50))], .LMG⟩, ⟨2, [("butt", some (50, 50))], .LMG⟩] =
      some (1, "butt") ∧
    mousePressHit 0 0 0 0 1
      [⟨1, [("barrel", some (6, 8))], .Rifle⟩, ⟨2, [("butt", some (0, 0))], .LMG⟩] =
      some (1, "barrel") := by
  refine ⟨?_, by decide, by decide⟩
  intro ex ey ox oy zoom skels
  rw [mousePressHit, hitTest_eq_head]

/-! ## Codec lemmas -/

theorem skeleton_parts_nodup (t : SkelType) : (skeleton_parts t).Nodup := by
  cases t <;> decide

theorem encodeKps_cons (W H : ℚ) (a : Anns) (p : String) (ps : List String) :
    encodeKps W H a (p :: ps) =
      (match getAnn a p with
       | some c => [fmt6 (c.1 / W), fmt6 (c.2 / H)]
       | none => [-1, -1]) ++ encodeKps W H a ps := by
  rw [encodeKps, encodeKps, List.flatMap_cons]

/-- The no-present-keypoint test of `save_yolo_format`: the collected
normalised `xs` list is empty exactly when every part of the variant's
part list is absent. -/
theorem encodeLine_eq_none_iff (W H : ℚ) (s : Skeleton) :
    encodeLine W H s = none ↔
      ∀ p ∈ skeleton_parts s.skeleton_type, getAnn s.anns p = none := by
  rw [encodeLine]
  by_cases hx :
      (skeleton_parts s.skeleton_type).filterMap
        (fun p => (getAnn s.anns p).map (fun c => c.1 / W)) = [] ∨
      (skeleton_parts s.skeleton_type).filterMap
        (fun p => (getAnn s.anns p).map (fun c => c.2 / H)) = []
  · simp only [hx, if_pos, true_iff]
    intro p hp
    rcases hx with hx | hx
    · have := List.filterMap_eq_nil_iff.1 hx p hp
      simpa [Option.map_eq_none'] using this
    · have := List.filterMap_eq_nil_iff.1 hx p hp
      simpa [Option.map_eq_none'] using this
  · simp only [hx, if_neg, not_false_iff]
    constructor
    · intro h
      simp at h
    · intro hall
      exfalso
      apply hx
      left
      exact List.filterMap_eq_nil_iff.2 (fun p hp => by simp [hall p hp])

/-- A skeleton with at least one present keypoint always produces a line,
whose shape is the class index, four bounding-box fields and the keypoint
fields. -/
theorem encodeLine_of_present (W H : ℚ) (s : Skeleton)
    (hpres : ∃ p ∈ skeleton_parts s.skeleton_type, (getAnn s.anns p).isSome) :
    ∃ c1 c2 c3 c4 : ℚ,
      encodeLine W H s = some (((class_index s.skeleton_type : ℕ) : ℚ) ::
        c1 :: c2 :: c3 :: c4 ::
        encodeKps W H s.anns (skeleton_parts s.skeleton_type)) := by
  obtain ⟨p, hp, hps⟩ := hpres
  rw [encodeLine]
  have hx : ¬ ((skeleton_parts s.skeleton_type).filterMap
        (fun p => (getAnn s.anns p).map (fun c => c.1 / W)) = [] ∨
      (skeleton_parts s.skeleton_type).filterMap
        (fun p => (getAnn s.anns p).map (fun c => c.2 / H)) = []) := by
    obtain ⟨c, hc⟩ := Option.isSome_iff_exists.1 hps
    rintro (hx | hx)
    · have := List.filterMap_eq_nil_iff.1 hx p hp
      rw [hc] at this
      simp at this
    · have := List.filterMap_eq_nil_iff.1 hx p hp
      rw [hc] at this
      simp at this
  rw [if_neg hx]
  exact ⟨_, _, _, _, rfl⟩

theorem encodeKps_length (W H : ℚ) (a : Anns) (ps : List String) :
    (encodeKps W H a ps).length = 2 * ps.length := by
  induction ps with
  | nil => rfl
  | cons p ps ih =>
      rw [encodeKps_cons, List.length_append, ih]
      cases getAnn a p <;> simp <;> omega

/-- Parsing back a line of the shape `encodeLine` produces: the class
index selects the same variant and the keypoint fields are handed
unchanged to the keypoint parser. -/
theorem load_line_encoded (W H : ℚ) (t : SkelType) (c1 c2 c3 c4 : ℚ) (kps : List ℚ) :
    load_line W H (((class_index t : ℕ) : ℚ) :: c1 :: c2 :: c3 :: c4 :: kps) =
      some (t, decodeKps W H (skeleton_parts t) kps) := by
  have hlen : ¬ (((class_index t : ℕ) : ℚ) :: c1 :: c2 :: c3 :: c4 :: kps).length < 5 := by
    simp only [List.length_cons]
    omega
  rw [load_line, if_neg hlen]
  have hcls : (if (((class_index t : ℕ) : ℚ) :: c1 :: c2 :: c3 :: c4 :: kps).headI = 0
      then SkelType.LMG else SkelType.Rifle) = t := by
    cases t
    · simp [List.headI, class_index]
    · have h1 : ((1 : ℕ) : ℚ) ≠ 0 := by norm_num
      simp [List.headI, class_index, h1]
  simp only [hcls, List.drop_succ_cons, List.drop_zero]

/-- Decoding the keypoint fields of an encoded skeleton: part by part, a
present keypoint (with nonnegative coordinates, as image-space positions
are) comes back present at the quantised position, an absent one comes
back absent. -/
theorem decodeKps_encodeKps (W H : ℚ) (hW : 0 < W) (hH : 0 < H) (a : Anns)
    (ps : List String)
    (hnn : ∀ p ∈ ps, ∀ c : Pos, getAnn a p = some c → 0 ≤ c.1 ∧ 0 ≤ c.2) :
    decodeKps W H ps (encodeKps W H a ps) =
      ps.map (fun p => (p,
        (getAnn a p).map (fun c => (fmt6 (c.1 / W) * W, fmt6 (c.2 / H) * H)))) := by
  induction ps with
  | nil => rfl
  | cons p ps ih =>
      rw [encodeKps_cons]
      cases hga : getAnn a p with
      | none =>
          have hneg : ¬ ((0 : ℚ) ≤ -1 ∧ (0 : ℚ) ≤ -1) := by norm_num
          simp only [List.nil_append, List.cons_append, decodeKps, if_neg hneg, List.map_cons, hga,
            Option.map_none']
          exact congrArg _ (ih (fun q hq => hnn q (List.mem_cons_of_mem _ hq)))
      | some c =>
          have hc := hnn p (List.mem_cons_self _ _) c hga
          have h1 : 0 ≤ fmt6 (c.1 / W) := fmt6_nonneg _ (div_nonneg hc.1 (le_of_lt hW))
          have h2 : 0 ≤ fmt6 (c.2 / H) := fmt6_nonneg _ (div_nonneg hc.2 (le_of_lt hH))
          simp only [List.cons_append, List.nil_append, decodeKps, if_pos (And.intro h1 h2),
            List.map_cons, hga, Option.map_some']
          exact congrArg _ (ih (fun q hq => hnn q (List.mem_cons_of_mem _ hq)))

/-- Looking a key up in an association list built over duplicate-free keys
by mapping a value function. -/
theorem getAnn_map_val (f : String → Option Pos) (ps : List String) (p : String)
    (hnd : ps.Nodup) (hp : p ∈ ps) :
    getAnn (ps.map (fun q => (q, f q))) p = f p := by
  induction ps with
  | nil => simp at hp
  | cons q ps ih =>
      rcases List.mem_cons.1 hp with h | h
      · subst h
        simp [getAnn, List.lookup]
      · have hq : p ≠ q := by
          intro he
          subst he
          exact (List.nodup_cons.1 hnd).1 h
        have hbeq : (p == q) = false := by simp [hq]
        simp only [List.map_cons, getAnn, List.lookup, hbeq]
        exact ih (List.nodup_cons.1 hnd).2 h

/-- The variant and keypoint dictionary of a skeleton, the part of its
state the codec round-trips (ids are freshly allocated on load). -/
def stripS (s : Skeleton) : SkelType × Anns := (s.skeleton_type, s.anns)

theorem loadAux_strip (W H : ℚ) (ls : List (List ℚ)) :
    ∀ acc : List Skeleton,
      (loadAux W H acc ls).map stripS = acc.map stripS ++ ls.filterMap (load_line W H) := by
  induction ls with
  | nil => intro acc; simp [loadAux]
  | cons toks rest ih =>
      intro acc
      rw [loadAux]
      cases hl : load_line W H toks with
      | none => rw [ih acc, List.filterMap_cons_none hl]
      | some ta =>
          obtain ⟨t, a⟩ := ta
          rw [ih, List.filterMap_cons_some hl]
          simp [stripS]

/-- Denormalising a 6-decimal-quantised normalised coordinate lands within
`0.5 / 10^6 * dimension` of the original image-space coordinate. -/
theorem fmt6_denorm_close (q W : ℚ) (hW : 0 < W) :
    |fmt6 (q / W) * W - q| ≤ W / 2000000 := by
  have h := abs_fmt6_sub (q / W)
  have hq : fmt6 (q / W) * W - q = (fmt6 (q / W) - q / W) * W := by
    rw [sub_mul, div_mul_cancel₀ _ (ne_of_gt hW)]
  rw [hq, abs_mul, abs_of_pos hW]
  calc |fmt6 (q / W) - q / W| * W ≤ (1 / 2000000) * W :=
        mul_le_mul_of_nonneg_right h (le_of_lt hW)
    _ = W / 2000000 := by ring

/-- Encoding then decoding, at the level of variants and keypoint
dictionaries (ids are freshly allocated by the loader). -/
theorem decoded_strip (W H : ℚ) (S : List Skeleton)
    (hpres : ∀ s ∈ S, ∃ p ∈ skeleton_parts s.skeleton_type, (getAnn s.anns p).isSome) :
    (load_annotations W H (yolo_data W H S)).map stripS =
      S.map (fun s => (s.skeleton_type,
        decodeKps W H (skeleton_parts s.skeleton_type)
          (encodeKps W H s.anns (skeleton_parts s.skeleton_type)))) := by
  rw [load_annotations, loadAux_strip]
  simp only [List.map_nil, List.nil_append]
  induction S with
  | nil => rfl
  | cons s S ih =>
      obtain ⟨c1, c2, c3, c4, henc⟩ :=
        encodeLine_of_present W H s (hpres s (List.mem_cons_self _ _))
      rw [yolo_data, List.filterMap_cons_some henc, List.filterMap_cons_some (load_line_encoded W H s.skeleton_type c1 c2 c3 c4 _), List.map_cons]
      rw [yolo_data] at ih
      rw [ih (fun s' hs' => hpres s' (List.mem_cons_of_mem _ hs'))]

/-- Relation compared by the round-trip claim: same variant and, part by
part over the variant's part list, the same present/absent pattern with
present positions within `0.5 / 10^6` of the original per axis after
denormalisation. -/
def KpClose (W H : ℚ) (d s : Skeleton) : Prop :=
  d.skeleton_type = s.skeleton_type ∧
  ∀ p ∈ skeleton_parts s.skeleton_type,
    (getAnn s.anns p = none ∧ getAnn d.anns p = none) ∨
    (∃ c c' : Pos, getAnn s.anns p = some c ∧ getAnn d.anns p = some c' ∧
      |c'.1 - c.1| ≤ W / 2000000 ∧ |c'.2 - c.2| ≤ H / 2000000)

theorem KpClose_of_strip (W H : ℚ) (hW : 0 < W) (hH : 0 < H) (s d : Skeleton)
    (hnn : ∀ p ∈ skeleton_parts s.skeleton_type, ∀ c : Pos,
      getAnn s.anns p = some c → 0 ≤ c.1 ∧ 0 ≤ c.2)
    (hstrip : stripS d = (s.skeleton_type,
      decodeKps W H (skeleton_parts s.skeleton_type)
        (encodeKps W H s.anns (skeleton_parts s.skeleton_type)))) :
    KpClose W H d s := by
  rw [stripS, Prod.mk.injEq] at hstrip
  refine ⟨hstrip.1, ?_⟩
  intro p hp
  rw [hstrip.2, decodeKps_encodeKps W H hW hH _ _ hnn,
    getAnn_map_val _ _ _ (skeleton_parts_nodup _) hp]
  cases hga : getAnn s.anns p with
  | none => left; simp
  | some c =>
      right
      refine ⟨c, (fmt6 (c.1 / W) * W, fmt6 (c.2 / H) * H), rfl, by simp, ?_, ?_⟩
      · exact fmt6_denorm_close c.1 W hW
      · exact fmt6_denorm_close c.2 H hH

theorem forall₂_KpClose_of_strip (W H : ℚ) (g : Skeleton → SkelType × Anns) :
    ∀ (S D : List Skeleton), D.map stripS = S.map g →
      (∀ s d, s ∈ S → stripS d = g s → KpClose W H d s) →
      List.Forall₂ (KpClose W H) D S := by
  intro S
  induction S with
  | nil =>
      intro D h _
      rw [List.map_nil, List.map_eq_nil_iff] at h
      subst h
      exact List.Forall₂.nil
  | cons s S ih =>
      intro D h hR
      cases D with
      | nil => simp at h
      | cons d D' =>
          simp only [List.map_cons, List.cons.injEq] at h
          exact List.Forall₂.cons (hR s d (List.mem_cons_self _ _) h.1)
            (ih D' h.2 (fun s' d' hs' => hR s' d' (List.mem_cons_of_mem _ hs')))

/-! ## Claim C1: encode/decode round trip -/

/-- C1: decoding the text produced by encoding a skeleton list (every
skeleton having at least one present keypoint, keypoint positions being
image-space positions, i.e. nonnegative) reproduces, skeleton by skeleton
in order, the same variant, the same present/absent pattern over the
variant's part list, and present positions within `0.5 / 10^6 * W`
(respectively `* H`) per axis. -/
theorem roundtrip_encode_decode (W H : ℚ) (hW : 0 < W) (hH : 0 < H)
    (S : List Skeleton)
    (hpres : ∀ s ∈ S, ∃ p ∈ skeleton_parts s.skeleton_type, (getAnn s.anns p).isSome)
    (hnn : ∀ s ∈ S, ∀ p ∈ skeleton_parts s.skeleton_type, ∀ c : Pos,
      getAnn s.anns p = some c → 0 ≤ c.1 ∧ 0 ≤ c.2) :
    List.Forall₂ (KpClose W H) (load_annotations W H (yolo_data W H S)) S := by
  apply forall₂_KpClose_of_strip W H
    (fun s => (s.skeleton_type,
      decodeKps W H (skeleton_parts s.skeleton_type)
        (encodeKps W H s.anns (skeleton_parts s.skeleton_type))))
    S _ (decoded_strip W H S hpres)
  intro s d hs hstrip
  exact KpClose_of_strip W H hW hH s d (hnn s hs) hstrip

/-- Witness for C1 on a one-skeleton store. -/
theorem roundtrip_encode_decode_witness :
    List.Forall₂ (KpClose 200 200)
      (load_annotations 200 200 (yolo_data 200 200 [⟨1, [("butt", some (100, 100))], .LMG⟩]))
      [⟨1, [("butt", some (100, 100))], .LMG⟩] :=
  roundtrip_encode_decode 200 200 (by norm_num) (by norm_num) _ (by decide) (by decide)

/-! ## Claim C4: shape of the emitted lines -/

/-- The scenario skeleton of C4: an LMG skeleton with only `"butt"`
present, at image position `(100, 100)`. -/
def buttSkel : Skeleton :=
  ⟨1, [("butt", some (100, 100)), ("pistol grip", none), ("trigger", none), ("cover", none),
       ("rear sight", none), ("barrel jacket", none), ("left bipod", none), ("right bipod", none)],
   .LMG⟩

/-- C4: a skeleton is skipped (no line) exactly when it has zero present
keypoints; when no skeleton is skipped the file has exactly one line per
skeleton in store order; and for one LMG skeleton with only `"butt"`
present at `(100, 100)` on a `200x200` image the emitted fields are
`0 0.500000 0.500000 0.000000 0.000000 0.500000 0.500000` followed by
seven `-1 -1` pairs. -/
theorem encode_one_line_per_skeleton :
    (∀ (W H : ℚ) (s : Skeleton),
      encodeLine W H s = none ↔ ∀ p ∈ skeleton_parts s.skeleton_type, getAnn s.anns p = none) ∧
    (∀ (W H : ℚ) (skels : List Skeleton),
      (∀ s ∈ skels, ∃ p ∈ skeleton_parts s.skeleton_type, (getAnn s.anns p).isSome) →
      (yolo_data W H skels).length = skels.length) ∧
    yolo_data 200 200 [buttSkel] =
      [[0, 1/2, 1/2, 0, 0, 1/2, 1/2, -1, -1, -1, -1, -1, -1, -1, -1, -1, -1, -1, -1, -1, -1]] := by
  refine ⟨encodeLine_eq_none_iff, ?_, by decide⟩
  intro W H skels hpres
  induction skels with
  | nil => rfl
  | cons s rest ih =>
      obtain ⟨c1, c2, c3, c4, henc⟩ :=
        encodeLine_of_present W H s (hpres s (List.mem_cons_self _ _))
      rw [yolo_data, List.filterMap_cons_some henc, List.length_cons, List.length_cons]
      rw [yolo_data] at ih
      rw [ih (fun s' hs' => hpres s' (List.mem_cons_of_mem _ hs'))]

/-- Witness for C4: a skeleton with every keypoint absent emits no line. -/
theorem encode_one_line_per_skeleton_witness :
    encodeLine 200 200 ⟨1, [("cover", none)], .LMG⟩ = none :=
  (encode_one_line_per_skeleton.1 200 200 ⟨1, [("cover", none)], .LMG⟩).mpr (by decide)

/-! ## Claim C7: saving with nothing to persist deletes the file -/

/-- C7: if the skeleton list is empty, or every skeleton has zero present
keypoints, saving writes no file and any previously existing annotation
file ends up deleted (the resulting file state is `none` whatever existed
before); and saving never mutates the in-memory skeleton list. -/
theorem save_empty_deletes_file :
    (∀ (W H : ℚ) (skels : List Skeleton) (existing : Option (List (List ℚ))),
      (skels = [] ∨ ∀ s ∈ skels, ∀ p ∈ skeleton_parts s.skeleton_type, getAnn s.anns p = none) →
      save_annotations W H skels existing = (skels, none)) ∧
    (∀ (W H : ℚ) (skels : List Skeleton) (existing : Option (List (List ℚ))),
      (save_annotations W H skels existing).1 = skels) := by
  constructor
  · intro W H skels existing h
    rcases h with h | h
    · subst h
      rfl
    · rw [save_annotations]
      have hyd : yolo_data W H skels = [] :=
        List.filterMap_eq_nil_iff.2
          (fun s hs => (encodeLine_eq_none_iff W H s).2 (h s hs))
      have : save_yolo_format W H skels existing = none := by
        rw [save_yolo_format, hyd]
      rw [this]
      simp
  · intro W H skels existing
    rfl

/-- Witness for C7: one all-absent skeleton over a previously existing
file. -/
theorem save_empty_deletes_file_witness :
    save_annotations 200 200 [⟨1, [("butt", none)], .LMG⟩] (some [[1, 2, 3, 4, 5]]) =
      ([⟨1, [("butt", none)], .LMG⟩], none) :=
  save_empty_deletes_file.1 200 200 _ _ (Or.inr (by decide))

/-! ## State-machine step lemmas -/

/-- Heap references recorded inside one history record. -/
def refsOfAct : HAction → List ℕ
  | .add_skeleton ref => [ref]
  | .move_keypoint ref _ _ _ => [ref]
  | .delete_keypoint ref _ _ => [ref]
  | .reset snap => snap

theorem applyOps_append (W H : ℕ) (st : ToolState) (l₁ l₂ : List Op) :
    applyOps W H st (l₁ ++ l₂) = applyOps W H (applyOps W H st l₁) l₂ :=
  List.foldl_append _ _ _ _

theorem opsOK_append (W H : ℕ) (st : ToolState) (l₁ l₂ : List Op) :
    opsOK W H st (l₁ ++ l₂) = (opsOK W H st l₁ && opsOK W H (applyOps W H st l₁) l₂) := by
  induction l₁ generalizing st with
  | nil => simp [opsOK, applyOps]
  | cons op l₁ ih =>
      have h1 : opsOK W H st ((op :: l₁) ++ l₂) =
          (opOK st op && opsOK W H (applyOp W H st op) (l₁ ++ l₂)) := rfl
      have h2 : opsOK W H st (op :: l₁) =
          (opOK st op && opsOK W H (applyOp W H st op) l₁) := rfl
      have h3 : applyOps W H st (op :: l₁) = applyOps W H (applyOp W H st op) l₁ := rfl
      rw [h1, h2, h3, ih, Bool.and_assoc]

theorem app_add_eq (W H : ℕ) (st : ToolState) (t : SkelType) :
    applyOp W H st (.add t) =
      ⟨st.skeletons ++ [st.counter],
       Function.update st.heap st.counter
         ⟨get_next_skeleton_id (st.skeletons.map st.heap) st.deleted_skeleton_ids,
          default_positions W H t, t⟩,
       st.counter + 1, st.deleted_skeleton_ids,
       .add_skeleton st.counter :: st.hist, []⟩ := rfl

theorem app_move_eq (W H : ℕ) (st : ToolState) (ref : ℕ) (part : String) (x y : ℚ) :
    applyOp W H st (.move ref part x y) =
      ⟨st.skeletons,
       Function.update st.heap ref
         ⟨(st.heap ref).id, setAnn (st.heap ref).anns part (some (clampMove W H x y)),
          (st.heap ref).skeleton_type⟩,
       st.counter, st.deleted_skeleton_ids,
       .move_keypoint ref part (getAnn (st.heap ref).anns part) (clampMove W H x y) :: st.hist,
       []⟩ := rfl

theorem app_del_eq (W H : ℕ) (st : ToolState) (ref : ℕ) (part : String) :
    applyOp W H st (.del ref part) =
      ⟨st.skeletons,
       Function.update st.heap ref
         ⟨(st.heap ref).id, setAnn (st.heap ref).anns part none, (st.heap ref).skeleton_type⟩,
       st.counter, st.deleted_skeleton_ids,
       .delete_keypoint ref part (getAnn (st.heap ref).anns part) :: st.hist, []⟩ := rfl

theorem undo_eq_add (W H : ℕ) (st : ToolState) (ref : ℕ) (h : List HAction)
    (hh : st.hist = .add_skeleton ref :: h) :
    applyOp W H st .undo =
      ⟨st.skeletons.erase ref, st.heap, st.counter,
       insert (st.heap ref).id st.deleted_skeleton_ids, h,
       .add_skeleton ref :: st.redo_stack⟩ := by
  obtain ⟨sk, hp, c, d, hi, rd⟩ := st
  simp only at hh
  subst hh
  rfl

theorem undo_eq_move (W H : ℕ) (st : ToolState) (ref : ℕ) (part : String)
    (oldc : Option Pos) (newc : Pos) (h : List HAction)
    (hh : st.hist = .move_keypoint ref part oldc newc :: h) :
    applyOp W H st .undo =
      ⟨st.skeletons,
       Function.update st.heap ref
         ⟨(st.heap ref).id, setAnn (st.heap ref).anns part oldc, (st.heap ref).skeleton_type⟩,
       st.counter, st.deleted_skeleton_ids, h,
       .move_keypoint ref part oldc newc :: st.redo_stack⟩ := by
  obtain ⟨sk, hp, c, d, hi, rd⟩ := st
  simp only at hh
  subst hh
  rfl

theorem undo_eq_del (W H : ℕ) (st : ToolState) (ref : ℕ) (part : String)
    (coords : Option Pos) (h : List HAction)
    (hh : st.hist = .delete_keypoint ref part coords :: h) :
    applyOp W H st .undo =
      ⟨st.skeletons,
       Function.update st.heap ref
         ⟨(st.heap ref).id, setAnn (st.heap ref).anns part coords, (st.heap ref).skeleton_type⟩,
       st.counter, st.deleted_skeleton_ids, h,
       .delete_keypoint ref part coords :: st.redo_stack⟩ := by
  obtain ⟨sk, hp, c, d, hi, rd⟩ := st
  simp only at hh
  subst hh
  rfl

theorem undo_eq_reset (W H : ℕ) (st : ToolState) (snap : List ℕ) (h : List HAction)
    (hh : st.hist = .reset snap :: h) :
    applyOp W H st .undo =
      ⟨snap, st.heap, st.counter, ∅, h, .reset snap :: st.redo_stack⟩ := by
  obtain ⟨sk, hp, c, d, hi, rd⟩ := st
  simp only at hh
  subst hh
  rfl

theorem redo_eq_add (W H : ℕ) (st : ToolState) (ref : ℕ) (r : List HAction)
    (hr : st.redo_stack = .add_skeleton ref :: r) :
    applyOp W H st .redo =
      ⟨st.skeletons ++ [ref], st.heap, st.counter,
       st.deleted_skeleton_ids.erase (st.heap ref).id,
       .add_skeleton ref :: st.hist, r⟩ := by
  obtain ⟨sk, hp, c, d, hi, rd⟩ := st
  simp only at hr
  subst hr
  rfl

theorem redo_eq_move (W H : ℕ) (st : ToolState) (ref : ℕ) (part : String)
    (oldc : Option Pos) (newc : Pos) (r : List HAction)
    (hr : st.redo_stack = .move_keypoint ref part oldc newc :: r) :
    applyOp W H st .redo =
      ⟨st.skeletons,
       Function.update st.heap ref
         ⟨(st.heap ref).id, setAnn (st.heap ref).anns part (some newc),
          (st.heap ref).skeleton_type⟩,
       st.counter, st.deleted_skeleton_ids,
       .move_keypoint ref part oldc newc :: st.hist, r⟩ := by
  obtain ⟨sk, hp, c, d, hi, rd⟩ := st
  simp only at hr
  subst hr
  rfl

theorem redo_eq_del (W H : ℕ) (st : ToolState) (ref : ℕ) (part : String)
    (coords : Option Pos) (r : List HAction)
    (hr : st.redo_stack = .delete_keypoint ref part coords :: r) :
    applyOp W H st .redo =
      ⟨st.skeletons,
       Function.update st.heap ref
         ⟨(st.heap ref).id, setAnn (st.heap ref).anns part none, (st.heap ref).skeleton_type⟩,
       st.counter, st.deleted_skeleton_ids,
       .delete_keypoint ref part coords :: st.hist, r⟩ := by
  obtain ⟨sk, hp, c, d, hi, rd⟩ := st
  simp only at hr
  subst hr
  rfl

theorem redo_eq_reset (W H : ℕ) (st : ToolState) (snap : List ℕ) (r : List HAction)
    (hr : st.redo_stack = .reset snap :: r) :
    applyOp W H st .redo =
      ⟨[], st.heap, st.counter, ∅, .reset snap :: st.hist, r⟩ := by
  obtain ⟨sk, hp, c, d, hi, rd⟩ := st
  simp only at hr
  subst hr
  rfl

theorem undo_hist_redo (W H : ℕ) (st : ToolState) (a : HAction) (h : List HAction)
    (hh : st.hist = a :: h) :
    (applyOp W H st .undo).hist = h ∧
    (applyOp W H st .undo).redo_stack = a :: st.redo_stack := by
  cases a with
  | add_skeleton ref => rw [undo_eq_add W H st ref h hh]; exact ⟨rfl, rfl⟩
  | move_keypoint ref part oldc newc => rw [undo_eq_move W H st ref part oldc newc h hh]; exact ⟨rfl, rfl⟩
  | delete_keypoint ref part coords => rw [undo_eq_del W H st ref part coords h hh]; exact ⟨rfl, rfl⟩
  | reset snap => rw [undo_eq_reset W H st snap h hh]; exact ⟨rfl, rfl⟩

theorem redoN_succ (W H : ℕ) (n : ℕ) :
    ∀ st : ToolState, redoN W H (n + 1) st = applyOp W H (redoN W H n st) .redo := by
  induction n with
  | zero => intro st; rfl
  | succ n ih =>
      intro st
      show redoN W H (n + 1) (applyOp W H st .redo) = _
      rw [ih (applyOp W H st .redo)]
      rfl

theorem undoN_redo_len (W H : ℕ) :
    ∀ (n : ℕ) (st : ToolState), n ≤ st.hist.length →
      (undoN W H n st).redo_stack.length = n + st.redo_stack.length := by
  intro n
  induction n with
  | zero => intro st _; simp [undoN]
  | succ n ih =>
      intro st hlen
      cases hh : st.hist with
      | nil => rw [hh] at hlen; simp at hlen
      | cons a h =>
          have hstep := undo_hist_redo W H st a h hh
          show (undoN W H n (applyOp W H st .undo)).redo_stack.length = _
          rw [ih (applyOp W H st .undo) (by rw [hstep.1]; rw [hh] at hlen; simpa using hlen)]
          rw [hstep.2]
          simp only [List.length_cons]
          omega

/-- Mid-undo simulation relation: `T` is the state actually being undone,
`S` the reachable state it shadows; they agree on the skeleton list, the
remaining history and the heap below the allocation bound `c` (above `c`,
`T` may carry leftover allocations from already-undone adds). -/
def SimT (c : ℕ) (T S : ToolState) : Prop :=
  T.skeletons = S.skeletons ∧ T.hist = S.hist ∧ ∀ r, r < c → T.heap r = S.heap r

/-- Bookkeeping invariant of states reached by `add`/`move`/`del` only:
all recorded references are below the allocation counter, the history has
one record per operation and the redo stack is empty. -/
def StOK (S : ToolState) (n : ℕ) : Prop :=
  (∀ r ∈ S.skeletons, r < S.counter) ∧
  (∀ a ∈ S.hist, ∀ r ∈ refsOfAct a, r < S.counter) ∧
  S.hist.length = n ∧ S.redo_stack = []

/-- Outcome of undoing `n` records of `T` and redoing all of them: the
shadowed state `S` is restored on the skeleton list, history and the heap
below `S.counter`; `T`'s own redo stack and the heap at and above
`S.counter` are untouched. -/
def PostRT (W H n : ℕ) (T S : ToolState) : Prop :=
  (redoN W H n (undoN W H n T)).skeletons = S.skeletons ∧
  (redoN W H n (undoN W H n T)).hist = S.hist ∧
  (redoN W H n (undoN W H n T)).redo_stack = T.redo_stack ∧
  (∀ r, r < S.counter → (redoN W H n (undoN W H n T)).heap r = S.heap r) ∧
  (∀ r, S.counter ≤ r → (redoN W H n (undoN W H n T)).heap r = T.heap r)

theorem step_add (W H : ℕ) (S' : ToolState) (n : ℕ) (t : SkelType)
    (hSt : StOK S' n)
    (hB : ∀ T, SimT S'.counter T S' → PostRT W H n T S') :
    StOK (applyOp W H S' (.add t)) (n + 1) ∧
    ∀ T, SimT (applyOp W H S' (.add t)).counter T (applyOp W H S' (.add t)) →
      PostRT W H (n + 1) T (applyOp W H S' (.add t)) := by
  obtain ⟨hSk, hHist, hLen, hRedo⟩ := hSt
  set skNew : Skeleton :=
    ⟨get_next_skeleton_id (S'.skeletons.map S'.heap) S'.deleted_skeleton_ids,
     default_positions W H t, t⟩ with hskNew
  have hS : applyOp W H S' (.add t) =
      ⟨S'.skeletons ++ [S'.counter], Function.update S'.heap S'.counter skNew,
       S'.counter + 1, S'.deleted_skeleton_ids,
       .add_skeleton S'.counter :: S'.hist, []⟩ := app_add_eq W H S' t
  constructor
  · rw [hS]
    refine ⟨?_, ?_, ?_, rfl⟩
    · dsimp only
      intro r hr
      rcases List.mem_append.1 hr with h | h
      · exact Nat.lt_succ_of_lt (hSk r h)
      · simp at h
        omega
    · dsimp only
      intro a ha r hr
      rcases List.mem_cons.1 ha with h | h
      · subst h
        simp [refsOfAct] at hr
        omega
      · exact Nat.lt_succ_of_lt (hHist a h r hr)
    · simp [hLen]
  · intro T hsim
    obtain ⟨hsim1, hsim2, hsim3⟩ := hsim
    rw [hS] at hsim1 hsim2 hsim3
    dsimp only at hsim1 hsim2 hsim3
    -- the first undo step removes the freshly added skeleton
    have hfresh : S'.counter ∉ S'.skeletons := fun hmem => lt_irrefl _ (hSk _ hmem)
    have hT₁ : applyOp W H T .undo =
        ⟨T.skeletons.erase S'.counter, T.heap, T.counter,
         insert (T.heap S'.counter).id T.deleted_skeleton_ids, S'.hist,
         .add_skeleton S'.counter :: T.redo_stack⟩ :=
      undo_eq_add W H T S'.counter S'.hist hsim2
    have hT₁sim : SimT S'.counter (applyOp W H T .undo) S' := by
      rw [hT₁]
      refine ⟨?_, rfl, ?_⟩
      · show T.skeletons.erase S'.counter = S'.skeletons
        rw [hsim1]
        exact erase_append_last _ _ hfresh
      · intro r hr
        show T.heap r = S'.heap r
        rw [hsim3 r (Nat.lt_succ_of_lt hr), Function.update_noteq (Nat.ne_of_lt hr)]
    have hpost := hB (applyOp W H T .undo) hT₁sim
    obtain ⟨hp1, hp2, hp3, hp4, hp5⟩ := hpost
    -- unfold one undo and one redo step
    have hun : undoN W H (n + 1) T = undoN W H n (applyOp W H T .undo) := rfl
    have hre : redoN W H (n + 1) (undoN W H (n + 1) T) =
        applyOp W H (redoN W H n (undoN W H n (applyOp W H T .undo))) .redo := by
      rw [hun, redoN_succ]
    set F' := redoN W H n (undoN W H n (applyOp W H T .undo)) with hF'
    have hT₁redo : (applyOp W H T .undo).redo_stack =
        HAction.add_skeleton S'.counter :: T.redo_stack := by rw [hT₁]
    have hT₁heap : (applyOp W H T .undo).heap = T.heap := by rw [hT₁]
    rw [hT₁redo] at hp3
    have hp5' : ∀ r, S'.counter ≤ r → F'.heap r = T.heap r := by
      intro r hr
      rw [hp5 r hr, hT₁heap]
    have hF : applyOp W H F' .redo =
        ⟨F'.skeletons ++ [S'.counter], F'.heap, F'.counter,
         F'.deleted_skeleton_ids.erase (F'.heap S'.counter).id,
         .add_skeleton S'.counter :: F'.hist, T.redo_stack⟩ :=
      redo_eq_add W H F' S'.counter T.redo_stack hp3
    rw [PostRT, hre, hF, hS]
    have hheapc : F'.heap S'.counter = T.heap S'.counter := hp5' S'.counter (le_refl _)
    refine ⟨?_, ?_, rfl, ?_, ?_⟩
    · show F'.skeletons ++ [S'.counter] = S'.skeletons ++ [S'.counter]
      rw [hp1]
    · show HAction.add_skeleton S'.counter :: F'.hist = HAction.add_skeleton S'.counter :: S'.hist
      rw [hp2]
    · intro r hr
      show F'.heap r = Function.update S'.heap S'.counter skNew r
      by_cases hrc : r = S'.counter
      · subst hrc
        rw [Function.update_same, hheapc, hsim3 S'.counter (Nat.lt_succ_self _), Function.update_same]
      · have hr' : r < S'.counter + 1 := hr
        have hrlt : r < S'.counter := by omega
        rw [Function.update_noteq hrc, hp4 r hrlt]
    · intro r hr
      have hr' : S'.counter + 1 ≤ r := hr
      show F'.heap r = T.heap r
      exact hp5' r (by omega)

theorem step_move (W H : ℕ) (S' : ToolState) (n : ℕ) (ref : ℕ) (part : String) (x y : ℚ)
    (hOK : opOK S' (.move ref part x y) = true)
    (hSt : StOK S' n)
    (hB : ∀ T, SimT S'.counter T S' → PostRT W H n T S') :
    StOK (applyOp W H S' (.move ref part x y)) (n + 1) ∧
    ∀ T, SimT (applyOp W H S' (.move ref part x y)).counter T (applyOp W H S' (.move ref part x y)) →
      PostRT W H (n + 1) T (applyOp W H S' (.move ref part x y)) := by
  obtain ⟨hSk, hHist, hLen, hRedo⟩ := hSt
  have hOK' : ref < S'.counter ∧ (List.lookup part (S'.heap ref).anns).isSome = true := by
    simpa [opOK, Bool.and_eq_true, decide_eq_true_iff] using hOK
  obtain ⟨href, hkey⟩ := hOK'
  have hlook : List.lookup part (S'.heap ref).anns =
      some (getAnn (S'.heap ref).anns part) := lookup_eq_some_getAnn _ _ hkey
  have hS : applyOp W H S' (.move ref part x y) =
      ⟨S'.skeletons,
       Function.update S'.heap ref
         ⟨(S'.heap ref).id, setAnn (S'.heap ref).anns part (some (clampMove W H x y)),
          (S'.heap ref).skeleton_type⟩,
       S'.counter, S'.deleted_skeleton_ids,
       .move_keypoint ref part (getAnn (S'.heap ref).anns part) (clampMove W H x y) :: S'.hist,
       []⟩ := app_move_eq W H S' ref part x y
  constructor
  · rw [hS]
    refine ⟨?_, ?_, ?_, rfl⟩
    · dsimp only
      exact hSk
    · dsimp only
      intro a' ha' r hr
      rcases List.mem_cons.1 ha' with h | h
      · subst h
        simp [refsOfAct] at hr
        omega
      · exact hHist a' h r hr
    · simp [hLen]
  · intro T hsim
    obtain ⟨hsim1, hsim2, hsim3⟩ := hsim
    rw [hS] at hsim1 hsim2 hsim3
    dsimp only at hsim1 hsim2 hsim3
    have hTheapref : T.heap ref =
        ⟨(S'.heap ref).id, setAnn (S'.heap ref).anns part (some (clampMove W H x y)),
         (S'.heap ref).skeleton_type⟩ := by
      rw [hsim3 ref href, Function.update_same]
    have hT₁ : applyOp W H T .undo =
        ⟨T.skeletons,
         Function.update T.heap ref
           ⟨(T.heap ref).id,
            setAnn (T.heap ref).anns part (getAnn (S'.heap ref).anns part),
            (T.heap ref).skeleton_type⟩,
         T.counter, T.deleted_skeleton_ids, S'.hist,
         .move_keypoint ref part (getAnn (S'.heap ref).anns part) (clampMove W H x y) ::
           T.redo_stack⟩ :=
      undo_eq_move W H T ref part (getAnn (S'.heap ref).anns part) (clampMove W H x y)
        S'.hist hsim2
    have hrest : (⟨(T.heap ref).id,
        setAnn (T.heap ref).anns part (getAnn (S'.heap ref).anns part),
        (T.heap ref).skeleton_type⟩ : Skeleton) = S'.heap ref := by
      rw [hTheapref]
      show (⟨(S'.heap ref).id,
        setAnn (setAnn (S'.heap ref).anns part (some (clampMove W H x y))) part
          (getAnn (S'.heap ref).anns part),
        (S'.heap ref).skeleton_type⟩ : Skeleton) = S'.heap ref
      rw [setAnn_setAnn_restore _ _ _ _ hlook]
    have hT₁sim : SimT S'.counter (applyOp W H T .undo) S' := by
      rw [hT₁]
      refine ⟨hsim1, rfl, ?_⟩
      intro r hr
      show Function.update T.heap ref _ r = S'.heap r
      by_cases hrc : r = ref
      · subst hrc
        rw [Function.update_same, hrest]
      · rw [Function.update_noteq hrc, hsim3 r hr, Function.update_noteq hrc]
    have hpost := hB (applyOp W H T .undo) hT₁sim
    obtain ⟨hp1, hp2, hp3, hp4, hp5⟩ := hpost
    have hun : undoN W H (n + 1) T = undoN W H n (applyOp W H T .undo) := rfl
    have hre : redoN W H (n + 1) (undoN W H (n + 1) T) =
        applyOp W H (redoN W H n (undoN W H n (applyOp W H T .undo))) .redo := by
      rw [hun, redoN_succ]
    set F' := redoN W H n (undoN W H n (applyOp W H T .undo)) with hF'
    have hT₁redo : (applyOp W H T .undo).redo_stack =
        .move_keypoint ref part (getAnn (S'.heap ref).anns part) (clampMove W H x y) ::
          T.redo_stack := by rw [hT₁]
    rw [hT₁redo] at hp3
    have hp5' : ∀ r, S'.counter ≤ r → F'.heap r = T.heap r := by
      intro r hr
      have hrne : r ≠ ref := by omega
      have hT₁heap : (applyOp W H T .undo).heap r = T.heap r := by
        rw [hT₁]
        exact Function.update_noteq hrne _ _
      rw [hp5 r hr, hT₁heap]
    have hF : applyOp W H F' .redo =
        ⟨F'.skeletons,
         Function.update F'.heap ref
           ⟨(F'.heap ref).id, setAnn (F'.heap ref).anns part (some (clampMove W H x y)),
            (F'.heap ref).skeleton_type⟩,
         F'.counter, F'.deleted_skeleton_ids,
         .move_keypoint ref part (getAnn (S'.heap ref).anns part) (clampMove W H x y) ::
           F'.hist, T.redo_stack⟩ :=
      redo_eq_move W H F' ref part (getAnn (S'.heap ref).anns part) (clampMove W H x y)
        T.redo_stack hp3
    rw [PostRT, hre, hF, hS]
    have hF'ref : F'.heap ref = S'.heap ref := hp4 ref href
    refine ⟨hp1, ?_, rfl, ?_, ?_⟩
    · show _ :: F'.hist = _ :: S'.hist
      rw [hp2]
    · intro r hr
      have hr' : r < S'.counter := hr
      show Function.update F'.heap ref _ r = Function.update S'.heap ref _ r
      by_cases hrc : r = ref
      · subst hrc
        rw [Function.update_same, Function.update_same, hF'ref]
      · rw [Function.update_noteq hrc, Function.update_noteq hrc, hp4 r hr']
    · intro r hr
      have hr' : S'.counter ≤ r := hr
      have hrne : r ≠ ref := by omega
      show Function.update F'.heap ref _ r = T.heap r
      rw [Function.update_noteq hrne, hp5' r hr']

theorem step_del (W H : ℕ) (S' : ToolState) (n : ℕ) (ref : ℕ) (part : String)
    (hOK : opOK S' (.del ref part) = true)
    (hSt : StOK S' n)
    (hB : ∀ T, SimT S'.counter T S' → PostRT W H n T S') :
    StOK (applyOp W H S' (.del ref part)) (n + 1) ∧
    ∀ T, SimT (applyOp W H S' (.del ref part)).counter T (applyOp W H S' (.del ref part)) →
      PostRT W H (n + 1) T (applyOp W H S' (.del ref part)) := by
  obtain ⟨hSk, hHist, hLen, hRedo⟩ := hSt
  have hOK' : ref < S'.counter ∧ (List.lookup part (S'.heap ref).anns).isSome = true := by
    simpa [opOK, Bool.and_eq_true, decide_eq_true_iff] using hOK
  obtain ⟨href, hkey⟩ := hOK'
  have hlook : List.lookup part (S'.heap ref).anns =
      some (getAnn (S'.heap ref).anns part) := lookup_eq_some_getAnn _ _ hkey
  have hS : applyOp W H S' (.del ref part) =
      ⟨S'.skeletons,
       Function.update S'.heap ref
         ⟨(S'.heap ref).id, setAnn (S'.heap ref).anns part none, (S'.heap ref).skeleton_type⟩,
       S'.counter, S'.deleted_skeleton_ids,
       .delete_keypoint ref part (getAnn (S'.heap ref).anns part) :: S'.hist,
       []⟩ := app_del_eq W H S' ref part
  constructor
  · rw [hS]
    refine ⟨?_, ?_, ?_, rfl⟩
    · dsimp only
      exact hSk
    · dsimp only
      intro a' ha' r hr
      rcases List.mem_cons.1 ha' with h | h
      · subst h
        simp [refsOfAct] at hr
        omega
      · exact hHist a' h r hr
    · simp [hLen]
  · intro T hsim
    obtain ⟨hsim1, hsim2, hsim3⟩ := hsim
    rw [hS] at hsim1 hsim2 hsim3
    dsimp only at hsim1 hsim2 hsim3
    have hTheapref : T.heap ref =
        ⟨(S'.heap ref).id, setAnn (S'.heap ref).anns part none,
         (S'.heap ref).skeleton_type⟩ := by
      rw [hsim3 ref href, Function.update_same]
    have hT₁ : applyOp W H T .undo =
        ⟨T.skeletons,
         Function.update T.heap ref
           ⟨(T.heap ref).id,
            setAnn (T.heap ref).anns part (getAnn (S'.heap ref).anns part),
            (T.heap ref).skeleton_type⟩,
         T.counter, T.deleted_skeleton_ids, S'.hist,
         .delete_keypoint ref part (getAnn (S'.heap ref).anns part) :: T.redo_stack⟩ :=
      undo_eq_del W H T ref part (getAnn (S'.heap ref).anns part) S'.hist hsim2
    have hrest : (⟨(T.heap ref).id,
        setAnn (T.heap ref).anns part (getAnn (S'.heap ref).anns part),
        (T.heap ref).skeleton_type⟩ : Skeleton) = S'.heap ref := by
      rw [hTheapref]
      show (⟨(S'.heap ref).id,
        setAnn (setAnn (S'.heap ref).anns part none) part
          (getAnn (S'.heap ref).anns part),
        (S'.heap ref).skeleton_type⟩ : Skeleton) = S'.heap ref
      rw [setAnn_setAnn_restore _ _ _ _ hlook]
    have hT₁sim : SimT S'.counter (applyOp W H T .undo) S' := by
      rw [hT₁]
      refine ⟨hsim1, rfl, ?_⟩
      intro r hr
      show Function.update T.heap ref _ r = S'.heap r
      by_cases hrc : r = ref
      · subst hrc
        rw [Function.update_same, hrest]
      · rw [Function.update_noteq hrc, hsim3 r hr, Function.update_noteq hrc]
    have hpost := hB (applyOp W H T .undo) hT₁sim
    obtain ⟨hp1, hp2, hp3, hp4, hp5⟩ := hpost
    have hun : undoN W H (n + 1) T = undoN W H n (applyOp W H T .undo) := rfl
    have hre : redoN W H (n + 1) (undoN W H (n + 1) T) =
        applyOp W H (redoN W H n (undoN W H n (applyOp W H T .undo))) .redo := by
      rw [hun, redoN_succ]
    set F' := redoN W H n (undoN W H n (applyOp W H T .undo)) with hF'
    have hT₁redo : (applyOp W H T .undo).redo_stack =
        .delete_keypoint ref part (getAnn (S'.heap ref).anns part) :: T.redo_stack := by
      rw [hT₁]
    rw [hT₁redo] at hp3
    have hp5' : ∀ r, S'.counter ≤ r → F'.heap r = T.heap r := by
      intro r hr
      have hrne : r ≠ ref := by omega
      have hT₁heap : (applyOp W H T .undo).heap r = T.heap r := by
        rw [hT₁]
        exact Function.update_noteq hrne _ _
      rw [hp5 r hr, hT₁heap]
    have hF : applyOp W H F' .redo =
        ⟨F'.skeletons,
         Function.update F'.heap ref
           ⟨(F'.heap ref).id, setAnn (F'.heap ref).anns part none,
            (F'.heap ref).skeleton_type⟩,
         F'.counter, F'.deleted_skeleton_ids,
         .delete_keypoint ref part (getAnn (S'.heap ref).anns part) :: F'.hist,
         T.redo_stack⟩ :=
      redo_eq_del W H F' ref part (getAnn (S'.heap ref).anns part) T.redo_stack hp3
    rw [PostRT, hre, hF, hS]
    have hF'ref : F'.heap ref = S'.heap ref := hp4 ref href
    refine ⟨hp1, ?_, rfl, ?_, ?_⟩
    · show _ :: F'.hist = _ :: S'.hist
      rw [hp2]
    · intro r hr
      have hr' : r < S'.counter := hr
      show Function.update F'.heap ref _ r = Function.update S'.heap ref _ r
      by_cases hrc : r = ref
      · subst hrc
        rw [Function.update_same, Function.update_same, hF'ref]
      · rw [Function.update_noteq hrc, Function.update_noteq hrc, hp4 r hr']
    · intro r hr
      have hr' : S'.counter ≤ r := hr
      have hrne : r ≠ ref := by omega
      show Function.update F'.heap ref _ r = T.heap r
      rw [Function.update_noteq hrne, hp5' r hr']

theorem sim_lemma (W H : ℕ) :
    ∀ ops : List Op, opsOK W H initState ops = true →
      StOK (applyOps W H initState ops) ops.length ∧
      ∀ T, SimT (applyOps W H initState ops).counter T (applyOps W H initState ops) →
        PostRT W H ops.length T (applyOps W H initState ops) := by
  intro ops
  induction ops using List.reverseRecOn with
  | nil =>
      intro _
      constructor
      · exact ⟨fun r hr => by simp [applyOps, initState] at hr,
               fun a ha => by simp [applyOps, initState] at ha, rfl, rfl⟩
      · intro T hsim
        exact ⟨hsim.1, hsim.2.1, rfl, fun r hr => hsim.2.2 r hr, fun r _ => rfl⟩
  | append_singleton ops op ih =>
      intro hok
      rw [opsOK_append, Bool.and_eq_true] at hok
      obtain ⟨hok1, hok2⟩ := hok
      have hok2' : opOK (applyOps W H initState ops) op = true := by
        have hexp : opsOK W H (applyOps W H initState ops) [op] =
            (opOK (applyOps W H initState ops) op &&
              opsOK W H (applyOp W H (applyOps W H initState ops) op) []) := rfl
        rw [hexp] at hok2
        have htr : opsOK W H (applyOp W H (applyOps W H initState ops) op) [] = true := rfl
        rw [htr, Bool.and_true] at hok2
        exact hok2
      obtain ⟨hSt, hB⟩ := ih hok1
      have happ : applyOps W H initState (ops ++ [op]) =
          applyOp W H (applyOps W H initState ops) op := by
        rw [applyOps_append]
        rfl
      have hlen : (ops ++ [op]).length = ops.length + 1 := by simp
      rw [happ, hlen]
      cases op with
      | add t => exact step_add W H (applyOps W H initState ops) ops.length t hSt hB
      | move ref part x y =>
          exact step_move W H (applyOps W H initState ops) ops.length ref part x y hok2' hSt hB
      | del ref part =>
          exact step_del W H (applyOps W H initState ops) ops.length ref part hok2' hSt hB
      | undo => simp [opOK] at hok2'
      | redo => simp [opOK] at hok2'
      | reset => simp [opOK] at hok2'

/-! ## Claim C2: undo-all then redo-all restores the skeleton state -/

/-- C2: after any valid sequence of `add`/`move`/`del` operations, calling
`undo_action` until the undo log is empty and then `redo_action` until the
redo log is empty restores exactly the observable skeleton state — the
live list in order with each skeleton's id, variant, and every keypoint's
present/absent status and position. -/
theorem undo_redo_restores (W H : ℕ) (ops : List Op)
    (hok : opsOK W H initState ops = true) :
    obs (redoAll W H (undoAll W H (applyOps W H initState ops))) =
      obs (applyOps W H initState ops) := by
  obtain ⟨hSt, hB⟩ := sim_lemma W H ops hok
  obtain ⟨hSk, hHist, hLen, hRedo⟩ := hSt
  have hsim : SimT (applyOps W H initState ops).counter (applyOps W H initState ops)
      (applyOps W H initState ops) := ⟨rfl, rfl, fun _ _ => rfl⟩
  obtain ⟨hp1, hp2, hp3, hp4, hp5⟩ := hB (applyOps W H initState ops) hsim
  have hundo : undoAll W H (applyOps W H initState ops) =
      undoN W H ops.length (applyOps W H initState ops) := by
    rw [undoAll, hLen]
  have hredolen : (undoN W H ops.length (applyOps W H initState ops)).redo_stack.length =
      ops.length := by
    rw [undoN_redo_len W H ops.length _ (le_of_eq hLen.symm), hRedo]
    simp
  have hredo : redoAll W H (undoN W H ops.length (applyOps W H initState ops)) =
      redoN W H ops.length (undoN W H ops.length (applyOps W H initState ops)) := by
    rw [redoAll, hredolen]
  rw [hundo, hredo, obs, obs, hp1]
  apply List.map_congr_left
  intro r hr
  exact hp4 r (hSk r hr)

/-- Witness for C2 on a concrete five-operation session. -/
theorem undo_redo_restores_witness :
    obs (redoAll 640 480 (undoAll 640 480 (applyOps 640 480 initState
      [.add .LMG, .move 0 "butt" 5 7, .del 0 "trigger", .add .Rifle,
       .move 1 "barrel" (-3) 99]))) =
    obs (applyOps 640 480 initState
      [.add .LMG, .move 0 "butt" 5 7, .del 0 "trigger", .add .Rifle,
       .move 1 "barrel" (-3) 99]) :=
  undo_redo_restores 640 480 _ (by decide)

/-! ## Claim C8: nonnegativity of present keypoint positions -/

/-- Nonnegativity of an optional position. -/
def optNonneg : Option Pos → Prop
  | some c => 0 ≤ c.1 ∧ 0 ≤ c.2
  | none => True

/-- Every present entry of a keypoint dictionary has nonnegative
coordinates. -/
def annsNonneg (a : Anns) : Prop :=
  ∀ p (c : Pos), (p, some c) ∈ a → 0 ≤ c.1 ∧ 0 ≤ c.2

/-- Positions recorded inside a history record are nonnegative. -/
def actNonneg : HAction → Prop
  | .move_keypoint _ _ oldc newc => optNonneg oldc ∧ (0 ≤ newc.1 ∧ 0 ≤ newc.2)
  | .delete_keypoint _ _ coords => optNonneg coords
  | _ => True

/-- Nonnegativity invariant over the whole session state. -/
def InvNN (st : ToolState) : Prop :=
  (∀ r, annsNonneg (st.heap r).anns) ∧
  (∀ a ∈ st.hist, actNonneg a) ∧
  (∀ a ∈ st.redo_stack, actNonneg a)

theorem annsNonneg_setAnn (a : Anns) (p : String) (v : Option Pos)
    (ha : annsNonneg a) (hv : optNonneg v) : annsNonneg (setAnn a p v) := by
  intro q c hmem
  rcases setAnn_mem a p v (q, some c) hmem with h | h
  · exact ha q c h
  · rw [Prod.mk.injEq] at h
    rw [← h.2] at hv
    exact hv

theorem optNonneg_getAnn (a : Anns) (p : String) (ha : annsNonneg a) :
    optNonneg (getAnn a p) := by
  cases hg : getAnn a p with
  | none => trivial
  | some c => exact ha p c (getAnn_mem a p c hg)

theorem clampMove_nonneg (W H : ℕ) (x y : ℚ) :
    0 ≤ (clampMove W H x y).1 ∧ 0 ≤ (clampMove W H x y).2 := by
  unfold clampMove
  dsimp only
  constructor
  · exact_mod_cast le_max_left 0 (min (ratTrunc x) ((W : ℤ) - 1))
  · exact_mod_cast le_max_left 0 (min (ratTrunc y) ((H : ℤ) - 1))

theorem annsNonneg_default (W H : ℕ) (t : SkelType) (hW : 200 ≤ W) (hH : 100 ≤ H) :
    annsNonneg (default_positions W H t) := by
  have hcx : (100 : ℚ) ≤ ((W / 2 : ℕ) : ℚ) := by
    have h : 100 ≤ W / 2 := by omega
    exact_mod_cast h
  have hcy : (50 : ℚ) ≤ ((H / 2 : ℕ) : ℚ) := by
    have h : 50 ≤ H / 2 := by omega
    exact_mod_cast h
  intro p c hmem
  cases t with
  | LMG =>
      simp only [default_positions, List.mem_cons, List.not_mem_nil, or_false,
        Prod.mk.injEq, Option.some.injEq] at hmem
      rcases hmem with ⟨hp, hc⟩ | ⟨hp, hc⟩ | ⟨hp, hc⟩ | ⟨hp, hc⟩ | ⟨hp, hc⟩ | ⟨hp, hc⟩ |
        ⟨hp, hc⟩ | ⟨hp, hc⟩ <;>
      subst hc <;> constructor <;> simp <;> first | omega | linarith
  | Rifle =>
      simp only [default_positions, List.mem_cons, List.not_mem_nil, or_false,
        Prod.mk.injEq, Option.some.injEq] at hmem
      rcases hmem with ⟨hp, hc⟩ | ⟨hp, hc⟩ | ⟨hp, hc⟩ | ⟨hp, hc⟩ | ⟨hp, hc⟩ | ⟨hp, hc⟩ <;>
      subst hc <;> constructor <;> simp <;> first | omega | linarith

theorem app_reset_eq (W H : ℕ) (st : ToolState) :
    applyOp W H st .reset =
      ⟨[], st.heap, st.counter, ∅, .reset st.skeletons :: st.hist, []⟩ := rfl

theorem undo_nil_eq (W H : ℕ) (st : ToolState) (hh : st.hist = []) :
    applyOp W H st .undo = st := by
  obtain ⟨sk, hp, c, d, hi, rd⟩ := st
  simp only at hh
  subst hh
  rfl

theorem redo_nil_eq (W H : ℕ) (st : ToolState) (hr : st.redo_stack = []) :
    applyOp W H st .redo = st := by
  obtain ⟨sk, hp, c, d, hi, rd⟩ := st
  simp only at hr
  subst hr
  rfl

theorem invStep (W H : ℕ) (hW : 200 ≤ W) (hH : 100 ≤ H) (st : ToolState) (op : Op)
    (hinv : InvNN st) : InvNN (applyOp W H st op) := by
  obtain ⟨h1, h2, h3⟩ := hinv
  cases op with
  | add t =>
      rw [app_add_eq]
      refine ⟨?_, ?_, ?_⟩
      · dsimp only
        intro r
        by_cases hrc : r = st.counter
        · subst hrc
          rw [Function.update_same]
          exact annsNonneg_default W H t hW hH
        · rw [Function.update_noteq hrc]
          exact h1 r
      · dsimp only
        intro a ha
        rcases List.mem_cons.1 ha with h | h
        · subst h; trivial
        · exact h2 a h
      · dsimp only
        intro a ha
        simp at ha
  | move ref part x y =>
      rw [app_move_eq]
      refine ⟨?_, ?_, ?_⟩
      · dsimp only
        intro r
        by_cases hrc : r = ref
        · subst hrc
          rw [Function.update_same]
          exact annsNonneg_setAnn _ _ _ (h1 r) (clampMove_nonneg W H x y)
        · rw [Function.update_noteq hrc]
          exact h1 r
      · dsimp only
        intro a ha
        rcases List.mem_cons.1 ha with h | h
        · subst h
          exact ⟨optNonneg_getAnn _ _ (h1 ref), clampMove_nonneg W H x y⟩
        · exact h2 a h
      · dsimp only
        intro a ha
        simp at ha
  | del ref part =>
      rw [app_del_eq]
      refine ⟨?_, ?_, ?_⟩
      · dsimp only
        intro r
        by_cases hrc : r = ref
        · subst hrc
          rw [Function.update_same]
          exact annsNonneg_setAnn _ _ _ (h1 r) trivial
        · rw [Function.update_noteq hrc]
          exact h1 r
      · dsimp only
        intro a ha
        rcases List.mem_cons.1 ha with h | h
        · subst h
          exact optNonneg_getAnn _ _ (h1 ref)
        · exact h2 a h
      · dsimp only
        intro a ha
        simp at ha
  | reset =>
      rw [app_reset_eq]
      refine ⟨h1, ?_, ?_⟩
      · dsimp only
        intro a ha
        rcases List.mem_cons.1 ha with h | h
        · subst h; trivial
        · exact h2 a h
      · dsimp only
        intro a ha
        simp at ha
  | undo =>
      cases hh : st.hist with
      | nil =>
          rw [undo_nil_eq W H st hh]
          exact ⟨h1, h2, h3⟩
      | cons a h =>
          have hact : actNonneg a := h2 a (by rw [hh]; exact List.mem_cons_self _ _)
          have h2' : ∀ b ∈ h, actNonneg b :=
            fun b hb => h2 b (by rw [hh]; exact List.mem_cons_of_mem _ hb)
          cases a with
          | add_skeleton ref =>
              rw [undo_eq_add W H st ref h hh]
              refine ⟨h1, h2', ?_⟩
              dsimp only
              intro b hb
              rcases List.mem_cons.1 hb with hb | hb
              · subst hb; trivial
              · exact h3 b hb
          | move_keypoint ref part oldc newc =>
              rw [undo_eq_move W H st ref part oldc newc h hh]
              refine ⟨?_, h2', ?_⟩
              · dsimp only
                intro r
                by_cases hrc : r = ref
                · subst hrc
                  rw [Function.update_same]
                  exact annsNonneg_setAnn _ _ _ (h1 r) hact.1
                · rw [Function.update_noteq hrc]
                  exact h1 r
              · dsimp only
                intro b hb
                rcases List.mem_cons.1 hb with hb | hb
                · subst hb; exact hact
                · exact h3 b hb
          | delete_keypoint ref part coords =>
              rw [undo_eq_del W H st ref part coords h hh]
              refine ⟨?_, h2', ?_⟩
              · dsimp only
                intro r
                by_cases hrc : r = ref
                · subst hrc
                  rw [Function.update_same]
                  exact annsNonneg_setAnn _ _ _ (h1 r) hact
                · rw [Function.update_noteq hrc]
                  exact h1 r
              · dsimp only
                intro b hb
                rcases List.mem_cons.1 hb with hb | hb
                · subst hb; exact hact
                · exact h3 b hb
          | reset snap =>
              rw [undo_eq_reset W H st snap h hh]
              refine ⟨h1, h2', ?_⟩
              dsimp only
              intro b hb
              rcases List.mem_cons.1 hb with hb | hb
              · subst hb; trivial
              · exact h3 b hb
  | redo =>
      cases hr : st.redo_stack with
      | nil =>
          rw [redo_nil_eq W H st hr]
          exact ⟨h1, h2, h3⟩
      | cons a r =>
          have hact : actNonneg a := h3 a (by rw [hr]; exact List.mem_cons_self _ _)
          have h3' : ∀ b ∈ r, actNonneg b :=
            fun b hb => h3 b (by rw [hr]; exact List.mem_cons_of_mem _ hb)
          cases a with
          | add_skeleton ref =>
              rw [redo_eq_add W H st ref r hr]
              refine ⟨h1, ?_, h3'⟩
              dsimp only
              intro b hb
              rcases List.mem_cons.1 hb with hb | hb
              · subst hb; trivial
              · exact h2 b hb
          | move_keypoint ref part oldc newc =>
              rw [redo_eq_move W H st ref part oldc newc r hr]
              refine ⟨?_, ?_, h3'⟩
              · dsimp only
                intro r'
                by_cases hrc : r' = ref
                · subst hrc
                  rw [Function.update_same]
                  exact annsNonneg_setAnn _ _ _ (h1 r') hact.2
                · rw [Function.update_noteq hrc]
                  exact h1 r'
              · dsimp only
                intro b hb
                rcases List.mem_cons.1 hb with hb | hb
                · subst hb; exact hact
                · exact h2 b hb
          | delete_keypoint ref part coords =>
              rw [redo_eq_del W H st ref part coords r hr]
              refine ⟨?_, ?_, h3'⟩
              · dsimp only
                intro r'
                by_cases hrc : r' = ref
                · subst hrc
                  rw [Function.update_same]
                  exact annsNonneg_setAnn _ _ _ (h1 r') trivial
                · rw [Function.update_noteq hrc]
                  exact h1 r'
              · dsimp only
                intro b hb
                rcases List.mem_cons.1 hb with hb | hb
                · subst hb; exact hact
                · exact h2 b hb
          | reset snap =>
              rw [redo_eq_reset W H st snap r hr]
              refine ⟨h1, ?_, h3'⟩
              dsimp only
              intro b hb
              rcases List.mem_cons.1 hb with hb | hb
              · subst hb; trivial
              · exact h2 b hb

theorem invOps (W H : ℕ) (hW : 200 ≤ W) (hH : 100 ≤ H) :
    ∀ (ops : List Op) (st : ToolState), InvNN st → InvNN (applyOps W H st ops) := by
  intro ops
  induction ops with
  | nil => intro st h; exact h
  | cons op rest ih =>
      intro st h
      exact ih (applyOp W H st op) (invStep W H hW hH st op h)

theorem invInit : InvNN initState := by
  refine ⟨?_, ?_, ?_⟩
  · intro r p c hmem
    simp [initState] at hmem
  · intro a ha
    simp [initState] at ha
  · intro a ha
    simp [initState] at ha

/-- C8 counterexample: on a positive-dimension image (`10 x 10`), a single
`addSkeleton` reaches a state whose live skeleton has the present keypoint
`"butt"` at x-coordinate `-95 < 0` — the claimed invariant fails for small
images because the default offsets are fixed amounts from the centre. -/
theorem positions_nonneg_counterexample :
    (obs (applyOps 10 10 initState [Op.add SkelType.LMG])).map
        (fun s => getAnn s.anns "butt") = [some (-95, 5)] ∧
    ((-95 : ℚ) < 0) ∧ (0 < (10 : ℕ)) := by
  refine ⟨by decide, by decide, by decide⟩

/-- C8 (amended): in every state reachable by any sequence of
`add`/`move`/`del`/`undo`/`redo`/`reset` operations on an image at least
200 pixels wide and 100 pixels tall (so that the fixed default offsets
from the image centre stay nonnegative), every present keypoint position
of every live skeleton has nonnegative coordinates. -/
theorem positions_nonneg_on_large_images (W H : ℕ) (hW : 200 ≤ W) (hH : 100 ≤ H)
    (ops : List Op) :
    ∀ s ∈ obs (applyOps W H initState ops), ∀ p (c : Pos),
      getAnn s.anns p = some c → 0 ≤ c.1 ∧ 0 ≤ c.2 := by
  intro s hs p c hg
  have hinv := invOps W H hW hH ops initState invInit
  obtain ⟨r, _, hr⟩ := List.mem_map.1 hs
  exact hinv.1 r p c (hr ▸ getAnn_mem s.anns p c hg)

/-- Witness for the amended C8: on a `200 x 100` image the added LMG
skeleton's `"butt"` keypoint is present at `(0, 50)`, which the theorem
certifies nonnegative. -/
theorem positions_nonneg_on_large_images_witness :
    getAnn ((applyOps 200 100 initState [Op.add SkelType.LMG]).heap 0).anns "butt" =
      some (0, 50) ∧
    (0 : ℚ) ≤ (0 : ℚ) ∧ (0 : ℚ) ≤ (50 : ℚ) := by
  have hg : getAnn ((applyOps 200 100 initState [Op.add SkelType.LMG]).heap 0).anns "butt" =
      some (0, 50) := by decide
  have hmem : (applyOps 200 100 initState [Op.add SkelType.LMG]).heap 0 ∈
      obs (applyOps 200 100 initState [Op.add SkelType.LMG]) := by decide
  exact ⟨hg, positions_nonneg_on_large_images 200 100 (by decide) (by decide)
    [Op.add SkelType.LMG] _ hmem "butt" (0, 50) hg⟩
